import Mathlib

/-!
Verification of the slang core definitions (pkg/core/def.go), the port
reference parser (pkg/api/slang.go) and the rand-range builtin body
against the natural-language specification.

The Go code is shallowly embedded: Go structs become inductive types,
`nil` pointers become explicit `none`-like constructors, Go maps become
association lists (one fixed iteration order), and fallible or panicking
code returns a `Res` value.  Functions keep the source's names where
possible.
-/

/-- Result of running a piece of Go code: a normal return value, an
`error` return, or a runtime panic (nil-pointer dereference or failed
type assertion). -/
inductive Res (α : Type) : Type where
  | ok (a : α)
  | err (msg : String)
  | panics
deriving DecidableEq, Repr

/-- Mapping over a successful result (plumbing for sequencing Go calls). -/
def Res.mapR {α β : Type} (r : Res α) (f : α → β) : Res β :=
  match r with
  | .ok a => .ok (f a)
  | .err msg => .err msg
  | .panics => .panics

/-- Sequencing of Go calls: stop at the first error or panic. -/
def Res.bindR {α β : Type} (r : Res α) (f : α → Res β) : Res β :=
  match r with
  | .ok a => f a
  | .err msg => .err msg
  | .panics => .panics

mutual
/-- Runtime values transported through ports (Go `interface{}` data as it
appears in `TypeDef.VerifyData`): nil, string, int, float64, bool,
`map[string]interface{}` and `[]interface{}`.  A float64 is carried
opaquely by its printed representation (no claim computes with floats).
`VMap` and `VList` are the nested map/list spines. -/
inductive Value : Type where
  | null
  | str (s : String)
  | int (n : Int)
  | float (repr : String)
  | bool (b : Bool)
  | vmap (m : VMap)
  | list (l : VList)
inductive VMap : Type where
  | nil
  | cons (k : String) (v : Value) (rest : VMap)
inductive VList : Type where
  | nil
  | cons (v : Value) (rest : VList)
end

/-- Lookup of a key in a Go `map[string]interface{}` (first binding wins;
Go maps have unique keys). -/
def VMap.lookup (k : String) : VMap → Option Value
  | .nil => none
  | .cons k' v rest => if k' = k then some v else VMap.lookup k rest

/-- Conversion of a `VList` spine to a `List Value`. -/
def VList.toList : VList → List Value
  | .nil => []
  | .cons v rest => v :: rest.toList

/-- Insertion of a map entry into a key-sorted `VMap` spine (helper for
`fmtValue`: Go's `fmt` package prints map keys in sorted order). -/
def insertVM (k : String) (v : Value) : VMap → VMap
  | .nil => .cons k v .nil
  | .cons k' v' rest =>
    if k ≤ k' then .cons k v (.cons k' v' rest)
    else .cons k' v' (insertVM k v rest)

mutual
/-- Deep key-sorting of the maps inside a value (how Go's `fmt` orders
map keys before printing). -/
def sortDeep : Value → Value
  | .vmap m => .vmap (sortDeepM m)
  | .list l => .list (sortDeepL l)
  | v => v

def sortDeepM : VMap → VMap
  | .nil => .nil
  | .cons k v rest => insertVM k (sortDeep v) (sortDeepM rest)

def sortDeepL : VList → VList
  | .nil => .nil
  | .cons v rest => .cons (sortDeep v) (sortDeepL rest)
end

mutual
/-- Rendering of a value with map entries in spine order (applied after
`sortDeep`): nil prints `<nil>`, strings print bare, ints in decimal,
bools as `true`/`false`, a float64 by its opaquely carried
representation, lists as `[e1 e2]`, maps as `map[k1:v1 k2:v2]`. -/
def fmtRaw : Value → String
  | .null => "<nil>"
  | .str s => s
  | .int n => toString n
  | .float r => r
  | .bool b => if b then "true" else "false"
  | .vmap m => "map[" ++ fmtEntries m ++ "]"
  | .list l => "[" ++ fmtElems l ++ "]"

/-- Space-separated `k:v` rendering of map entries. -/
def fmtEntries : VMap → String
  | .nil => ""
  | .cons k v .nil => k ++ ":" ++ fmtRaw v
  | .cons k v rest => k ++ ":" ++ fmtRaw v ++ " " ++ fmtEntries rest

/-- Space-separated rendering of list elements. -/
def fmtElems : VList → String
  | .nil => ""
  | .cons v .nil => fmtRaw v
  | .cons v rest => fmtRaw v ++ " " ++ fmtElems rest
end

/-- Go's `fmt.Sprintf("%v", x)` as used by `expandExpressionPart` and by
the `VerifyData` error message. -/
def fmtValue (v : Value) : String := fmtRaw (sortDeep v)

/-!  ## TypeDef (pkg/core/def.go)

A Go `TypeDef` struct carries all fields at once: `Type` (string
discriminant), `Stream *TypeDef` (possibly nil), `Map map[string]*TypeDef`
(association list here; a nil Go map and an empty one both become `.nil`;
entries are modelled non-nil, as enforced by `Validate`), `Generic` and
the private `valid` flag. -/
mutual
inductive TypeDef : Type where
  | mk (ty : String) (stream : OptTD) (tmap : TDMap) (generic : String) (valid : Bool)
inductive OptTD : Type where
  | none
  | some (t : TypeDef)
inductive TDMap : Type where
  | nil
  | cons (k : String) (v : TypeDef) (rest : TDMap)
end

def TypeDef.ty : TypeDef → String
  | .mk t _ _ _ _ => t

def TypeDef.stream : TypeDef → OptTD
  | .mk _ s _ _ _ => s

def TypeDef.tmap : TypeDef → TDMap
  | .mk _ _ m _ _ => m

def TypeDef.generic : TypeDef → String
  | .mk _ _ _ g _ => g

def TypeDef.valid : TypeDef → Bool
  | .mk _ _ _ _ v => v

/-- Lookup of a key in a `map[string]*TypeDef`. -/
def TDMap.lookup (k : String) : TDMap → Option TypeDef
  | .nil => none
  | .cons k' v rest => if k' = k then some v else TDMap.lookup k rest

def TDMap.toList : TDMap → List (String × TypeDef)
  | .nil => []
  | .cons k v rest => (k, v) :: rest.toList

mutual
/-- `TypeDef.Copy`: deep copy.  `cpy := TypeDef{Type: d.Type, Generic:
d.Generic}` starts from a zero struct, so the private `valid` flag of
every copied node is reset to `false`. -/
def TypeDef.copy : TypeDef → TypeDef
  | .mk t s m g _ => .mk t s.copyO m.copyM g false

def OptTD.copyO : OptTD → OptTD
  | .none => .none
  | .some t => .some t.copy

def TDMap.copyM : TDMap → TDMap
  | .nil => .nil
  | .cons k v rest => .cons k v.copy rest.copyM
end

/-- The `validTypes` slice of `TypeDef.Validate`. -/
def validTypes : List String :=
  ["generic", "primitive", "trigger", "number", "string", "binary", "boolean", "stream", "map"]

/-- Emptiness of a `map[string]*TypeDef` (`len(d.Map) == 0`; a nil Go map
also has length 0). -/
def TDMap.isEmpty : TDMap → Bool
  | .nil => true
  | .cons _ _ _ => false

mutual
/-- `TypeDef.Validate`: returns the receiver's post-state on success.
For `stream` the Go code ends with `return d.Stream.Validate()`, so on
success the receiver's own `valid` flag is left untouched; every other
valid type reaches `d.valid = true`. -/
def TypeDef.validate : TypeDef → Res TypeDef
  | .mk t s m g v =>
    if t = "" then .err "type must not be empty"
    else if ¬ validTypes.contains t then .err "unknown type"
    else if t = "generic" then
      if g = "" then .err "generic identifier missing"
      else .ok (.mk t s m g true)
    else if t = "stream" then
      match s with
      | .none => .err "stream missing"
      | .some c => c.validate.mapR (fun c' => .mk t (.some c') m g v)
    else if t = "map" then
      if m.isEmpty then .err "map missing or empty"
      else m.validateM.mapR (fun m' => .mk t s m' g true)
    else .ok (.mk t s m g true)

def TDMap.validateM : TDMap → Res TDMap
  | .nil => .ok .nil
  | .cons k e rest =>
    e.validate.bindR (fun e' => rest.validateM.mapR (fun rest' => .cons k e' rest'))
end

mutual
/-- `TypeDef.GenericsSpecified`: errors as soon as a node has
`Type == "generic"` or a non-empty `Generic` identifier; recurses into
the stream child (a nil `Stream` pointer is dereferenced: panic) and
into map entries. -/
def TypeDef.genericsSpecified : TypeDef → Res Unit
  | .mk t s m g _ =>
    if t = "generic" ∨ g ≠ "" then .err ("generic not replaced: " ++ g)
    else if t = "stream" then
      match s with
      | .none => .panics
      | .some c => c.genericsSpecified
    else if t = "map" then m.genericsSpecifiedM
    else .ok ()

def TDMap.genericsSpecifiedM : TDMap → Res Unit
  | .nil => .ok ()
  | .cons _ e rest => e.genericsSpecified.bindR (fun _ => rest.genericsSpecifiedM)
end

/-- The default branch of `TypeDef.VerifyData`:
`fmt.Errorf("exptected %s, got %v", d.Type, data)` (typo as in the source). -/
def derr (d : TypeDef) (v : Value) : Res Unit :=
  .err ("exptected " ++ d.ty ++ ", got " ++ fmtValue v)

mutual
/-- `TypeDef.VerifyData`: structural check of a runtime value against the
type, by cases on the Go type switch.  For a map value against a `map`
type only the keys of `d.Map` are checked (keys of the value outside
`d.Map` are ignored).  For a list value, only `stream` accepts (the
`trigger` test inside that branch is dead code); each element is checked
against `d.Stream`, dereferenced without a nil check. -/
def TypeDef.verifyData : TypeDef → Value → Res Unit
  | d, .null =>
    if d.ty = "stream" ∨ d.ty = "primitive" ∨ d.ty = "trigger" ∨ d.ty = "string"
        ∨ d.ty = "number" ∨ d.ty = "boolean" then .ok ()
    else derr d .null
  | d, .str s =>
    if d.ty = "string" ∨ d.ty = "primitive" ∨ d.ty = "trigger" then .ok ()
    else derr d (.str s)
  | d, .int n =>
    if d.ty = "number" ∨ d.ty = "primitive" ∨ d.ty = "trigger" then .ok ()
    else derr d (.int n)
  | d, .float r =>
    if d.ty = "number" ∨ d.ty = "primitive" ∨ d.ty = "trigger" then .ok ()
    else derr d (.float r)
  | d, .bool b =>
    if d.ty = "boolean" ∨ d.ty = "primitive" ∨ d.ty = "trigger" then .ok ()
    else derr d (.bool b)
  | .mk t s m g v, .vmap vm =>
    if t = "trigger" then .ok ()
    else if t = "map" then verifyEntries m vm
    else derr (.mk t s m g v) (.vmap vm)
  | .mk t s m g v, .list l =>
    if t = "stream" then verifyElems s l
    else derr (.mk t s m g v) (.list l)
termination_by d v => (sizeOf d, sizeOf v)

/-- Iteration over the entries of `d.Map`: a key of `d.Map` missing from
the value is an error; present entries are checked recursively. -/
def verifyEntries : TDMap → VMap → Res Unit
  | .nil, _ => .ok ()
  | .cons k sub rest, vm =>
    match vm.lookup k with
    | none => .err ("missing entry " ++ k)
    | some e => (sub.verifyData e).bindR (fun _ => verifyEntries rest vm)
termination_by tm vm => (sizeOf tm, sizeOf vm)

/-- Iteration over a list value's elements against `d.Stream`; a nil
`Stream` pointer is dereferenced per element (panic on the first one). -/
def verifyElems : OptTD → VList → Res Unit
  | _, .nil => .ok ()
  | .none, .cons _ _ => .panics
  | .some sub, .cons e r =>
    (sub.verifyData e).bindR (fun _ => verifyElems (.some sub) r)
termination_by s l => (sizeOf s, sizeOf l)
end

example : (TypeDef.mk "trigger" .none .nil "" false).verifyData (.list .nil)
    = .err "exptected trigger, got []" := by
  simp [TypeDef.verifyData, derr, TypeDef.ty, fmtValue, sortDeep, sortDeepL, fmtRaw, fmtElems]

example : (TypeDef.mk "trigger" .none .nil "" false).verifyData (.vmap .nil) = .ok () := by
  simp [TypeDef.verifyData, TypeDef.ty]

example : (TypeDef.mk "primitive" .none .nil "" false).verifyData .null = .ok () := by
  simp [TypeDef.verifyData, TypeDef.ty]

example : (TypeDef.mk "stream" .none .nil "" false).verifyData (.list (.cons .null .nil))
    = .panics := by
  simp [TypeDef.verifyData, verifyElems, TypeDef.ty]

example : (TypeDef.mk "stream" .none .nil "" false).validate
    = .err "stream missing" := rfl

/-- C9: a successful `Validate` on a `stream` TypeDef leaves the receiver's
`valid` flag unset (the method returns `d.Stream.Validate()` before reaching
`d.valid = true`), while for every other type a successful `Validate` sets it. -/
theorem validate_stream_valid_flag (t t' : TypeDef) :
    (t.ty = "stream" → t.valid = false → t.validate = .ok t' → t'.valid = false)
    ∧ (t.ty ≠ "stream" → t.validate = .ok t' → t'.valid = true) := by
  obtain ⟨ty, s, m, g, v⟩ := t
  constructor
  · intro hty hval hok
    simp only [TypeDef.ty] at hty
    simp only [TypeDef.valid] at hval
    subst hty hval
    cases s with
    | none => cases hok
    | some c =>
      have hu : TypeDef.validate (.mk "stream" (.some c) m g false)
          = c.validate.mapR (fun c' => .mk "stream" (.some c') m g false) := rfl
      rw [hu] at hok
      cases hcv : c.validate with
      | ok c' =>
        rw [hcv] at hok
        cases hok
        rfl
      | err e => rw [hcv, Res.mapR] at hok; cases hok
      | panics => rw [hcv, Res.mapR] at hok; cases hok
  · intro hty hok
    simp only [TypeDef.ty] at hty
    unfold TypeDef.validate at hok
    split_ifs at hok with h1 h2 h3 h4 h5
    · cases hok; rfl
    · cases hm : TDMap.validateM m with
      | ok m' => simp only [hm, Res.mapR] at hok; cases hok; rfl
      | err msg => simp only [hm, Res.mapR] at hok; cases hok
      | panics => simp only [hm, Res.mapR] at hok; cases hok
    · cases hok; rfl

/-- Witness for `validate_stream_valid_flag`: a concrete `stream` TypeDef whose
successful validation leaves `valid = false`, and a concrete `map` TypeDef whose
successful validation sets `valid = true`. -/
theorem validate_stream_valid_flag_witness :
    (TypeDef.mk "stream" (.some (.mk "number" .none .nil "" false)) .nil "" false).validate
        = .ok (.mk "stream" (.some (.mk "number" .none .nil "" true)) .nil "" false)
    ∧ (TypeDef.mk "stream" (.some (.mk "number" .none .nil "" true)) .nil "" false).valid = false
    ∧ (TypeDef.mk "map" .none (.cons "a" (.mk "number" .none .nil "" false) .nil) "" false).validate
        = .ok (.mk "map" .none (.cons "a" (.mk "number" .none .nil "" true) .nil) "" true)
    ∧ (TypeDef.mk "map" .none (.cons "a" (.mk "number" .none .nil "" true) .nil) "" true).valid = true := by
  refine ⟨rfl, ?_, rfl, ?_⟩
  · exact (validate_stream_valid_flag
      (.mk "stream" (.some (.mk "number" .none .nil "" false)) .nil "" false)
      (.mk "stream" (.some (.mk "number" .none .nil "" true)) .nil "" false)).1 rfl rfl rfl
  · exact (validate_stream_valid_flag
      (.mk "map" .none (.cons "a" (.mk "number" .none .nil "" false) .nil) "" false)
      (.mk "map" .none (.cons "a" (.mk "number" .none .nil "" true) .nil) "" true)).2
      (by decide) rfl

/-- C2: `VerifyData` on a `trigger` type rejects a list value (the
`if d.Type == "trigger"` test in the `[]interface{}` case sits unreachably
inside the `d.Type == "stream"` branch, so it never fires), while `primitive`
accepts every scalar (nil, string, int, float64, bool). -/
theorem verifyData_trigger_rejects_list :
    (TypeDef.mk "trigger" .none .nil "" false).verifyData (.list .nil)
      = .err "exptected trigger, got []"
    ∧ (TypeDef.mk "primitive" .none .nil "" false).verifyData .null = .ok ()
    ∧ (TypeDef.mk "primitive" .none .nil "" false).verifyData (.str "x") = .ok ()
    ∧ (TypeDef.mk "primitive" .none .nil "" false).verifyData (.int 5) = .ok ()
    ∧ (TypeDef.mk "primitive" .none .nil "" false).verifyData (.float "1.5") = .ok ()
    ∧ (TypeDef.mk "primitive" .none .nil "" false).verifyData (.bool true) = .ok () := by
  refine ⟨?_, ?_, ?_, ?_, ?_, ?_⟩ <;>
    simp [TypeDef.verifyData, derr, TypeDef.ty, fmtValue, sortDeep, sortDeepL, fmtRaw, fmtElems]

/-- C1 counterexample: a map-typed TypeDef accepts a map value carrying an
extra key ("b") that is not in `t.Map`; only the keys of `t.Map` are checked. -/
theorem verifyData_map_extra_key_accepted :
    (TypeDef.mk "map" .none (.cons "a" (.mk "number" .none .nil "" false) .nil) "" false).verifyData
        (.vmap (.cons "a" (.int 1) (.cons "b" (.int 2) .nil))) = .ok ()
    ∧ TDMap.lookup "b" (.cons "a" (.mk "number" .none .nil "" false) .nil) = none
    ∧ VMap.lookup "b" (.cons "a" (.int 1) (.cons "b" (.int 2) .nil)) = some (.int 2) := by
  refine ⟨?_, rfl, rfl⟩
  simp [TypeDef.verifyData, verifyEntries, VMap.lookup, Res.bindR, TypeDef.ty]

/-- Helper for the amended C1: success of the entry loop of `VerifyData` on a
map value means exactly that every key of `d.Map` is present in the value and
its entry conforms recursively. -/
theorem verifyEntries_ok_iff (m : TDMap) (vm : VMap) :
    verifyEntries m vm = .ok () ↔
      ∀ p ∈ m.toList, ∃ e, vm.lookup p.1 = some e ∧ p.2.verifyData e = .ok () := by
  match m with
  | .nil => simp [verifyEntries, TDMap.toList]
  | .cons k sub rest =>
    have ih := verifyEntries_ok_iff rest vm
    simp only [verifyEntries]
    cases hl : vm.lookup k with
    | none =>
      constructor
      · intro h; cases h
      · intro h
        obtain ⟨e, he, -⟩ := h (k, sub) (by simp [TDMap.toList])
        rw [hl] at he
        cases he
    | some e =>
      cases hv : sub.verifyData e with
      | ok u =>
        cases u
        simp only [hv, Res.bindR]
        rw [ih]
        constructor
        · intro h p hp
          have hp' : p = (k, sub) ∨ p ∈ rest.toList := by
            simpa [TDMap.toList] using hp
          rcases hp' with h1 | h1
          · subst h1; exact ⟨e, hl, hv⟩
          · exact h p h1
        · intro h p hp
          exact h p (by simp [TDMap.toList, List.mem_cons]; exact Or.inr hp)
      | err msg =>
        simp only [hv, Res.bindR]
        constructor
        · intro h; cases h
        · intro h
          obtain ⟨e', he, hv'⟩ := h (k, sub) (by simp [TDMap.toList])
          rw [hl] at he
          injection he with he'
          subst he'
          rw [hv] at hv'
          cases hv'
      | panics =>
        simp only [hv, Res.bindR]
        constructor
        · intro h; cases h
        · intro h
          obtain ⟨e', he, hv'⟩ := h (k, sub) (by simp [TDMap.toList])
          rw [hl] at he
          injection he with he'
          subst he'
          rw [hv] at hv'
          cases hv'

/-- C1 (amended): for a map-typed TypeDef, `VerifyData` on a map value
succeeds iff every key of `t.Map` is present in the value with a recursively
conforming entry; keys of the value outside `t.Map` are ignored, not
rejected. -/
theorem verifyData_map_ok_iff (t : TypeDef) (vm : VMap) (h : t.ty = "map") :
    t.verifyData (.vmap vm) = .ok () ↔
      ∀ p ∈ t.tmap.toList, ∃ e, vm.lookup p.1 = some e ∧ p.2.verifyData e = .ok () := by
  obtain ⟨ty, s, m, g, v⟩ := t
  simp only [TypeDef.ty] at h
  subst h
  have hu : TypeDef.verifyData (.mk "map" s m g v) (.vmap vm) = verifyEntries m vm := by
    simp [TypeDef.verifyData]
  rw [hu]
  exact verifyEntries_ok_iff m vm

/-- Witness for `verifyData_map_ok_iff` at a concrete map type and value. -/
theorem verifyData_map_ok_iff_witness :
    (TypeDef.mk "map" .none (.cons "a" (.mk "number" .none .nil "" false) .nil) "" false).verifyData
        (.vmap (.cons "a" (.int 3) .nil)) = .ok ()
    ↔ ∀ p ∈ (TypeDef.mk "map" .none (.cons "a" (.mk "number" .none .nil "" false) .nil) "" false).tmap.toList,
        ∃ e, (VMap.cons "a" (.int 3) .nil).lookup p.1 = some e ∧ p.2.verifyData e = .ok () :=
  verifyData_map_ok_iff _ _ rfl

/-!  ## Generic specification (C4, C5) -/

mutual
/-- Well-shapedness of a TypeDef along the traversal the def.go methods
perform: every node reached with `Type == "stream"` has a non-nil
`Stream` child (so the nil dereferences of `GenericsSpecified` and
`SpecifyGenerics` cannot fire), recursively, and map entries are
well-shaped when `Type == "map"`. -/
def TypeDef.wsf : TypeDef → Bool
  | .mk t s m _ _ =>
    (if t = "stream" then s.wsfO else true) && (if t = "map" then m.wsfM else true)

def OptTD.wsfO : OptTD → Bool
  | .none => false
  | .some c => c.wsf

def TDMap.wsfM : TDMap → Bool
  | .nil => true
  | .cons _ e rest => e.wsf && rest.wsfM
end

mutual
/-- Modelled from the claim's words (C4): presence of a node of type
`generic` anywhere in the TypeDef, descending into every present stream
child and every map entry. -/
def TypeDef.hasGenericTypedNode : TypeDef → Bool
  | .mk t s m _ _ => (t == "generic") || s.hasGenericTypedO || m.hasGenericTypedM

def OptTD.hasGenericTypedO : OptTD → Bool
  | .none => false
  | .some c => c.hasGenericTypedNode

def TDMap.hasGenericTypedM : TDMap → Bool
  | .nil => false
  | .cons _ e rest => e.hasGenericTypedNode || rest.hasGenericTypedM
end

mutual
/-- Presence of a node that makes `GenericsSpecified` fail: type
`generic`, or a non-empty `Generic` identifier, along the traversal that
`GenericsSpecified` performs (stream child when `Type == "stream"`, map
entries when `Type == "map"`). -/
def TypeDef.hasGenericMark : TypeDef → Bool
  | .mk t s m g _ =>
    (t == "generic") || (g != "") ||
    (if t = "stream" then s.hasGenericMarkO else false) ||
    (if t = "map" then m.hasGenericMarkM else false)

def OptTD.hasGenericMarkO : OptTD → Bool
  | .none => false
  | .some c => c.hasGenericMark

def TDMap.hasGenericMarkM : TDMap → Bool
  | .nil => false
  | .cons _ e rest => e.hasGenericMark || rest.hasGenericMarkM
end

/-- C4 counterexample: a TypeDef with no generic-typed node anywhere (it is a
bare `number` node) on which `GenericsSpecified` nevertheless errors, because
the method also fails on any node with a non-empty `Generic` identifier. -/
theorem genericsSpecified_err_without_generic_node :
    (TypeDef.mk "number" .none .nil "x" true).genericsSpecified = .err "generic not replaced: x"
    ∧ (TypeDef.mk "number" .none .nil "x" true).hasGenericTypedNode = false := ⟨rfl, rfl⟩

mutual
/-- C4 (amended): for a well-shaped TypeDef, `GenericsSpecified` succeeds iff
no node of type `generic` and no node with a non-empty `Generic` identifier
remains along the traversal (stream children and map entries included). -/
theorem genericsSpecified_ok_iff (t : TypeDef) (h : t.wsf = true) :
    t.genericsSpecified = .ok () ↔ t.hasGenericMark = false := by
  obtain ⟨ty, s, m, g, v⟩ := t
  by_cases hg : ty = "generic" ∨ g ≠ ""
  · have hL : (TypeDef.mk ty s m g v).genericsSpecified = .err ("generic not replaced: " ++ g) := by
      unfold TypeDef.genericsSpecified
      rw [if_pos hg]
    rw [hL]
    constructor
    · intro hok; cases hok
    · intro hmark
      exfalso
      simp only [TypeDef.hasGenericMark, Bool.or_eq_false_iff, beq_eq_false_iff_ne,
        bne_eq_false_iff_eq] at hmark
      rcases hg with hg | hg
      · exact hmark.1.1.1 hg
      · exact hg hmark.1.1.2
  · push_neg at hg
    obtain ⟨hg1, hg2⟩ := hg
    subst hg2
    by_cases hstr : ty = "stream"
    · subst hstr
      cases s with
      | none => simp [TypeDef.wsf, OptTD.wsfO] at h
      | some c =>
        have hc : c.wsf = true := by
          simpa [TypeDef.wsf, OptTD.wsfO] using h
        have hL : (TypeDef.mk "stream" (.some c) m "" v).genericsSpecified
            = c.genericsSpecified := rfl
        have hR : (TypeDef.mk "stream" (.some c) m "" v).hasGenericMark
            = c.hasGenericMark := by
          simp [TypeDef.hasGenericMark, OptTD.hasGenericMarkO]
        rw [hL, hR]
        exact genericsSpecified_ok_iff c hc
    · by_cases hmap : ty = "map"
      · subst hmap
        have hm : m.wsfM = true := by
          simpa [TypeDef.wsf] using h
        have hL : (TypeDef.mk "map" s m "" v).genericsSpecified = m.genericsSpecifiedM := by
          unfold TypeDef.genericsSpecified
          rw [if_neg (by decide), if_neg (by decide), if_pos rfl]
        have hR : (TypeDef.mk "map" s m "" v).hasGenericMark = m.hasGenericMarkM := by
          simp [TypeDef.hasGenericMark]
        rw [hL, hR]
        exact genericsSpecifiedM_ok_iff m hm
      · have hcond : ¬ (ty = "generic" ∨ ("" : String) ≠ "") := by simp [hg1]
        have hL : (TypeDef.mk ty s m "" v).genericsSpecified = .ok () := by
          unfold TypeDef.genericsSpecified
          rw [if_neg hcond, if_neg hstr, if_neg hmap]
        have hR : (TypeDef.mk ty s m "" v).hasGenericMark = false := by
          simp only [TypeDef.hasGenericMark]
          rw [if_neg hstr, if_neg hmap]
          simp [beq_eq_false_iff_ne, hg1]
        rw [hL, hR]
        simp

/-- Entry-list version of `genericsSpecified_ok_iff`. -/
theorem genericsSpecifiedM_ok_iff (m : TDMap) (h : m.wsfM = true) :
    m.genericsSpecifiedM = .ok () ↔ m.hasGenericMarkM = false := by
  match m with
  | .nil => simp [TDMap.genericsSpecifiedM, TDMap.hasGenericMarkM]
  | .cons k e rest =>
    have hh : e.wsf = true ∧ rest.wsfM = true := by
      simpa [TDMap.wsfM, Bool.and_eq_true] using h
    have ih1 := genericsSpecified_ok_iff e hh.1
    have ih2 := genericsSpecifiedM_ok_iff rest hh.2
    simp only [TDMap.genericsSpecifiedM, TDMap.hasGenericMarkM]
    cases he : e.genericsSpecified with
    | ok u =>
      cases u
      simp only [Res.bindR]
      rw [ih1.mp he]
      simpa using ih2
    | err msg =>
      have hm : e.hasGenericMark = true := by
        cases hcm : e.hasGenericMark
        · have := ih1.mpr hcm
          rw [he] at this
          cases this
        · rfl
      simp only [Res.bindR]
      rw [hm]
      constructor
      · intro hc; cases hc
      · intro hc; cases hc
    | panics =>
      have hm : e.hasGenericMark = true := by
        cases hcm : e.hasGenericMark
        · have := ih1.mpr hcm
          rw [he] at this
          cases this
        · rfl
      simp only [Res.bindR]
      rw [hm]
      constructor
      · intro hc; cases hc
      · intro hc; cases hc
end

/-- Witness for `genericsSpecified_ok_iff` at a concrete well-shaped stream
TypeDef. -/
theorem genericsSpecified_ok_iff_witness :
    (TypeDef.mk "stream" (.some (.mk "number" .none .nil "" false)) .nil "" false).genericsSpecified
        = .ok ()
    ↔ (TypeDef.mk "stream" (.some (.mk "number" .none .nil "" false)) .nil "" false).hasGenericMark
        = false :=
  genericsSpecified_ok_iff _ (by decide)

/-!  ## InstanceDef and OperatorDef validation (C6) -/

/-- Go `strings.Contains(s, c)` for a single-character needle. -/
def containsChar (s : String) (c : Char) : Bool := s.data.contains c

/-- `InstanceDef` (pkg/core/def.go): only the fields read by `Validate`
(`Name`, `Operator`) and the private `valid` flag are carried; the
`Properties`, `Generics` and resolved `OperatorDef` fields play no role in
validation. -/
structure InstanceDefE where
  name : String
  operator : String
  valid : Bool
deriving DecidableEq, Repr

/-- `InstanceDef.Validate`: rejects an empty name, a name containing the
space character `" "`, an empty operator, and an operator containing a
space; otherwise sets `valid`. -/
def InstanceDefE.validate (d : InstanceDefE) : Res InstanceDefE :=
  if d.name = "" then .err "instance name may not be empty"
  else if containsChar d.name ' ' then
    .err ("operator instance name may not contain spaces: \"" ++ d.name ++ "\"")
  else if d.operator = "" then .err "operator may not be empty"
  else if containsChar d.operator ' ' then
    .err ("operator may not contain spaces: \"" ++ d.operator ++ "\"")
  else .ok { d with valid := true }

/-- `ServiceDef` (and, identically shaped, `DelegateDef`): an In and an Out
TypeDef plus the private `valid` flag. -/
structure ServiceDefE where
  pin : TypeDef
  pout : TypeDef
  valid : Bool

/-- `ServiceDef.Validate` / `DelegateDef.Validate`: validate In, then Out,
then set `valid`. -/
def ServiceDefE.validate (d : ServiceDefE) : Res ServiceDefE :=
  d.pin.validate.bindR (fun i' =>
    d.pout.validate.mapR (fun o' => ⟨i', o', true⟩))

/-- `OperatorDef`: services, delegates (both name-keyed Go maps, modelled
as association lists) and the child instance list, plus the private
`valid` flag.  `PropertyDefs` and `Connections` are not read by
`Validate` and are omitted here. -/
structure OperatorDefE where
  services : List (String × ServiceDefE)
  delegates : List (String × ServiceDefE)
  instances : List InstanceDefE
  valid : Bool

/-- The service/delegate loop of `OperatorDef.Validate`: validate each,
stopping at the first error. -/
def validateSrvList : List (String × ServiceDefE) → Res (List (String × ServiceDefE))
  | [] => .ok []
  | (n, srv) :: rest =>
    srv.validate.bindR (fun srv' =>
      (validateSrvList rest).mapR (fun rest' => (n, srv') :: rest'))

/-- The child-instance loop of `OperatorDef.Validate`: validate each
instance, then reject a name already seen
(`colliding instance names within same parent operator`). -/
def validateInsList : List InstanceDefE → List String → Res (List InstanceDefE)
  | [], _ => .ok []
  | ins :: rest, seen =>
    ins.validate.bindR (fun ins' =>
      if seen.contains ins.name then
        .err ("colliding instance names within same parent operator: \"" ++ ins.name ++ "\"")
      else
        (validateInsList rest (ins.name :: seen)).mapR (fun rest' => ins' :: rest'))

/-- `OperatorDef.Validate`: every service, every delegate and every child
instance is validated and child instance names must be unique; then the
`valid` flag is set. -/
def OperatorDefE.validate (d : OperatorDefE) : Res OperatorDefE :=
  (validateSrvList d.services).bindR (fun srvs' =>
    (validateSrvList d.delegates).bindR (fun dels' =>
      (validateInsList d.instances []).mapR (fun ins' => ⟨srvs', dels', ins', true⟩)))

/-- C6 counterexample: an instance whose name contains a tab — a whitespace
character — passes `InstanceDef.Validate`, because the code only checks for
the space character `" "`. -/
theorem instanceDef_validate_accepts_tab_name :
    InstanceDefE.validate ⟨"a\tb", "op", false⟩ = .ok ⟨"a\tb", "op", true⟩
    ∧ Char.isWhitespace '\t' = true
    ∧ "a\tb".data.contains '\t' = true := by
  refine ⟨by decide, by decide, by decide⟩

/-- Success characterization of the service/delegate loop. -/
theorem validateSrvList_ok_iff (l : List (String × ServiceDefE)) :
    (∃ l', validateSrvList l = .ok l') ↔ ∀ p ∈ l, ∃ s', p.2.validate = .ok s' := by
  induction l with
  | nil => simp [validateSrvList]
  | cons p rest ih =>
    obtain ⟨n, srv⟩ := p
    simp only [validateSrvList, List.forall_mem_cons]
    rw [← ih]
    cases hs : srv.validate with
    | ok s' =>
      simp only [Res.bindR]
      cases hr : validateSrvList rest with
      | ok r' => simp [Res.mapR, hs, hr]
      | err msg => simp [Res.mapR, hs, hr]
      | panics => simp [Res.mapR, hs, hr]
    | err msg => simp [Res.bindR, hs]
    | panics => simp [Res.bindR, hs]

/-- Success characterization of the child-instance loop with its seen-name
set: every instance validates, names are pairwise distinct, and no name
collides with a previously seen one. -/
theorem validateInsList_ok_iff (l : List InstanceDefE) (seen : List String) :
    (∃ l', validateInsList l seen = .ok l') ↔
      ((∀ i ∈ l, ∃ i', i.validate = .ok i')
        ∧ (l.map InstanceDefE.name).Nodup
        ∧ ∀ n ∈ l.map InstanceDefE.name, n ∉ seen) := by
  induction l generalizing seen with
  | nil => simp [validateInsList]
  | cons ins rest ih =>
    simp only [validateInsList, List.map_cons, List.forall_mem_cons, List.nodup_cons]
    cases hi : ins.validate with
    | err msg =>
      simp only [Res.bindR]
      constructor
      · rintro ⟨l', hl'⟩; cases hl'
      · rintro ⟨⟨⟨i', hi'⟩, -⟩, -, -⟩
        cases hi'
    | panics =>
      simp only [Res.bindR]
      constructor
      · rintro ⟨l', hl'⟩; cases hl'
      · rintro ⟨⟨⟨i', hi'⟩, -⟩, -, -⟩
        cases hi'
    | ok i' =>
      simp only [Res.bindR]
      by_cases hseen : ins.name ∈ seen
      · rw [if_pos (by simpa using hseen)]
        constructor
        · rintro ⟨l', hl'⟩; cases hl'
        · rintro ⟨-, -, hhead, -⟩
          exact (hhead hseen).elim
      · rw [if_neg (by simpa using hseen)]
        have key := ih (ins.name :: seen)
        cases hr : validateInsList rest (ins.name :: seen) with
        | ok r' =>
          simp only [Res.mapR]
          obtain ⟨hall, hnd, hnot⟩ := key.mp ⟨r', hr⟩
          constructor
          · rintro ⟨l', -⟩
            refine ⟨⟨⟨i', rfl⟩, hall⟩, ⟨?_, hnd⟩, ?_, ?_⟩
            · intro hmem
              have := hnot _ hmem
              simp at this
            · exact hseen
            · intro n hn
              have := hnot _ hn
              simp only [List.mem_cons, not_or] at this
              exact this.2
          · intro h
            exact ⟨i' :: r', rfl⟩
        | err msg =>
          simp only [Res.mapR]
          constructor
          · rintro ⟨l', hl'⟩; cases hl'
          · rintro ⟨⟨-, hall⟩, ⟨hnin, hnd⟩, hhead, htail⟩
            have hside : ∀ n ∈ rest.map InstanceDefE.name, n ∉ (ins.name :: seen) := by
              intro n hn
              simp only [List.mem_cons, not_or]
              exact ⟨fun he => hnin (he ▸ hn), htail n hn⟩
            obtain ⟨l', hl'⟩ := key.mpr ⟨hall, hnd, hside⟩
            rw [hr] at hl'
            cases hl'
        | panics =>
          simp only [Res.mapR]
          constructor
          · rintro ⟨l', hl'⟩; cases hl'
          · rintro ⟨⟨-, hall⟩, ⟨hnin, hnd⟩, hhead, htail⟩
            have hside : ∀ n ∈ rest.map InstanceDefE.name, n ∉ (ins.name :: seen) := by
              intro n hn
              simp only [List.mem_cons, not_or]
              exact ⟨fun he => hnin (he ▸ hn), htail n hn⟩
            obtain ⟨l', hl'⟩ := key.mpr ⟨hall, hnd, hside⟩
            rw [hr] at hl'
            cases hl'

/-- C6 (amended): `InstanceDef.Validate` succeeds iff the name is non-empty
and free of the space character `" "` (other whitespace such as tab is NOT
rejected) and the operator reference is likewise non-empty and space-free;
`OperatorDef.Validate` succeeds iff every service, delegate and child
instance validates and the child instance names are pairwise distinct. -/
theorem validate_name_rules (d : InstanceDefE) (o : OperatorDefE) :
    ((∃ d', d.validate = .ok d') ↔
      (d.name ≠ "" ∧ containsChar d.name ' ' = false
        ∧ d.operator ≠ "" ∧ containsChar d.operator ' ' = false))
    ∧ ((∃ o', o.validate = .ok o') ↔
      ((∀ p ∈ o.services, ∃ s', p.2.validate = .ok s')
        ∧ (∀ p ∈ o.delegates, ∃ s', p.2.validate = .ok s')
        ∧ (∀ i ∈ o.instances, ∃ i', i.validate = .ok i')
        ∧ (o.instances.map InstanceDefE.name).Nodup)) := by
  constructor
  · unfold InstanceDefE.validate
    split_ifs with h1 h2 h3 h4
    · simp [h1]
    · simp [h2]
    · simp [h3]
    · simp [h4]
    · simp [h1, h2, h3, h4]
  · constructor
    · rintro ⟨o', ho⟩
      unfold OperatorDefE.validate at ho
      cases hs : validateSrvList o.services with
      | err msg => rw [hs] at ho; cases ho
      | panics => rw [hs] at ho; cases ho
      | ok srvs' =>
        rw [hs] at ho
        simp only [Res.bindR] at ho
        cases hd : validateSrvList o.delegates with
        | err msg => rw [hd] at ho; cases ho
        | panics => rw [hd] at ho; cases ho
        | ok dels' =>
          rw [hd] at ho
          simp only [Res.bindR] at ho
          cases hi : validateInsList o.instances [] with
          | err msg => rw [hi] at ho; cases ho
          | panics => rw [hi] at ho; cases ho
          | ok ins' =>
            obtain ⟨hall, hnd, -⟩ := (validateInsList_ok_iff o.instances []).mp ⟨ins', hi⟩
            exact ⟨(validateSrvList_ok_iff _).mp ⟨srvs', hs⟩,
              (validateSrvList_ok_iff _).mp ⟨dels', hd⟩, hall, hnd⟩
    · rintro ⟨hsrv, hdel, hins, hnodup⟩
      obtain ⟨srvs', hs⟩ := (validateSrvList_ok_iff _).mpr hsrv
      obtain ⟨dels', hd⟩ := (validateSrvList_ok_iff _).mpr hdel
      obtain ⟨ins', hi⟩ := (validateInsList_ok_iff o.instances []).mpr
        ⟨hins, hnodup, by simp⟩
      refine ⟨⟨srvs', dels', ins', true⟩, ?_⟩
      unfold OperatorDefE.validate
      rw [hs, hd, hi]
      rfl

/-- Number of entries of a `map[string]*TypeDef` spine. -/
def TDMap.lengthM : TDMap → Nat
  | .nil => 0
  | .cons _ _ rest => rest.lengthM + 1

/-- Result of `SpecifyGenerics`: the Go method never builds an error value
itself (every `return err` only propagates), but it can panic on a nil
`Stream` pointer, and — because the full generics map is re-applied inside
every recursion — it need not terminate at all, so the embedding carries a
fuel counter and `.fuelOut` marks a computation the Go code would still be
running. -/
inductive SgR (α : Type) : Type where
  | ok (a : α)
  | panics
  | fuelOut

/-- Sequencing for `SgR`. -/
def SgR.bindS {α β : Type} (r : SgR α) (f : α → SgR β) : SgR β :=
  match r with
  | .ok a => f a
  | .panics => .panics
  | .fuelOut => .fuelOut

mutual
/-- The `for identifier, pd := range generics` loop of
`TypeDef.SpecifyGenerics`, with the Go map frozen into one iteration
order (`rem` is the not-yet-visited part, `full` the whole map).  Per
iteration: a node whose `Generic` equals the identifier is replaced by a
deep copy of the binding (and the method returns); a `stream` node copies
its child (nil child: panic), re-applies the whole map to the copy and
returns; a `map` node replaces every entry by a copy with the whole map
re-applied, then continues the loop; any other node just continues. -/
def sgLoop : Nat → TypeDef → List (String × TypeDef) → List (String × TypeDef) → SgR TypeDef
  | 0, _, _, _ => .fuelOut
  | _ + 1, d, [], _ => .ok d
  | fuel + 1, .mk t s m g v, (id, pd) :: rest, full =>
    if g = id then .ok pd.copy
    else if t = "stream" then
      match s with
      | .none => .panics
      | .some c =>
        (sgLoop fuel c.copy full full).bindS (fun c' => .ok (.mk t (.some c') m g v))
    else if t = "map" then
      (sgMapEntries fuel m full).bindS (fun m' => sgLoop (fuel + 1) (.mk t s m' g v) rest full)
    else sgLoop (fuel + 1) (.mk t s m g v) rest full
termination_by fuel _ rem _ => (fuel, rem.length)

/-- The map-entry loop of `SpecifyGenerics`: every entry is copied and the
whole generics map applied to the copy. -/
def sgMapEntries : Nat → TDMap → List (String × TypeDef) → SgR TDMap
  | _, .nil, _ => .ok .nil
  | fuel, .cons k e r, full =>
    (sgLoop fuel e.copy full full).bindS (fun e' =>
      (sgMapEntries fuel r full).bindS (fun r' => .ok (.cons k e' r')))
termination_by fuel m full => (fuel, full.length + 1 + m.lengthM)
decreasing_by
  all_goals exact Prod.Lex.right _ (by simp [TDMap.lengthM]; try omega)
end

/-- `TypeDef.SpecifyGenerics`: run the binding loop on the whole map. -/
def TypeDef.specifyGenerics (fuel : Nat) (d : TypeDef) (generics : List (String × TypeDef)) :
    SgR TypeDef :=
  sgLoop fuel d generics generics

/-- C5 counterexample: with bindings `{g1 ↦ generic g2, g2 ↦ number}`,
applying `SpecifyGenerics` once to `generic g1` yields `generic g2`, but
applying it twice yields `number` — applying twice is NOT the same as
applying once. -/
theorem specifyGenerics_not_idempotent :
    TypeDef.specifyGenerics 5 (.mk "generic" .none .nil "g1" false)
        [("g1", .mk "generic" .none .nil "g2" false), ("g2", .mk "number" .none .nil "" false)]
      = .ok (.mk "generic" .none .nil "g2" false)
    ∧ TypeDef.specifyGenerics 5 (.mk "generic" .none .nil "g2" false)
        [("g1", .mk "generic" .none .nil "g2" false), ("g2", .mk "number" .none .nil "" false)]
      = .ok (.mk "number" .none .nil "" false)
    ∧ (TypeDef.mk "generic" .none .nil "g2" false).ty ≠ (TypeDef.mk "number" .none .nil "" false).ty := by
  refine ⟨?_, ?_, by decide⟩ <;>
    simp [TypeDef.specifyGenerics, sgLoop, TypeDef.copy, OptTD.copyO, TDMap.copyM, SgR.bindS]

/-- The keys of a generics binding list. -/
def keysOf (b : List (String × TypeDef)) : List String := b.map Prod.fst

/-- First binding for an identifier (Go maps have unique keys, so this is
the map lookup). -/
def lookupKey (g : String) : List (String × TypeDef) → Option TypeDef
  | [] => Option.none
  | (k, pd) :: rest => if k = g then Option.some pd else lookupKey g rest

mutual
/-- A TypeDef is generic-well-formed when only `generic`-typed nodes carry
a `Generic` identifier, along the discriminant-guided structure. -/
def TypeDef.wfgen : TypeDef → Bool
  | .mk t s m g _ =>
    ((t == "generic") || (g == "")) &&
    (if t = "stream" then s.wfgenO else true) &&
    (if t = "map" then m.wfgenM else true)

def OptTD.wfgenO : OptTD → Bool
  | .none => true
  | .some c => c.wfgen

def TDMap.wfgenM : TDMap → Bool
  | .nil => true
  | .cons _ e rest => e.wfgen && rest.wfgenM
end

mutual
/-- No node of the TypeDef carries a `Generic` identifier bound in `ks`,
along the discriminant-guided structure (so no binding of the loop can
fire anywhere). -/
def TypeDef.noBound (ks : List String) : TypeDef → Bool
  | .mk t s m g _ =>
    (!ks.contains g) &&
    (if t = "stream" then s.noBoundO ks else true) &&
    (if t = "map" then m.noBoundM ks else true)

def OptTD.noBoundO (ks : List String) : OptTD → Bool
  | .none => true
  | .some c => c.noBound ks

def TDMap.noBoundM (ks : List String) : TDMap → Bool
  | .nil => true
  | .cons _ e rest => e.noBound ks && rest.noBoundM ks
end

mutual
/-- Every `valid` flag in the full struct tree (all fields, regardless of
the discriminant) is `false`; exactly the TypeDefs satisfying
`t.copy = t`. -/
def TypeDef.copyFixed : TypeDef → Bool
  | .mk _ s m _ v => !v && s.copyFixedO && m.copyFixedM

def OptTD.copyFixedO : OptTD → Bool
  | .none => true
  | .some c => c.copyFixed

def TDMap.copyFixedM : TDMap → Bool
  | .nil => true
  | .cons _ e rest => e.copyFixed && rest.copyFixedM
end

/-- The discriminant-guided children of the node are copy-fixed (the node's
own flag is unconstrained). -/
def TypeDef.subCopyFixed : TypeDef → Bool
  | .mk t s m _ _ =>
    (if t = "stream" then s.copyFixedO else true) &&
    (if t = "map" then m.copyFixedM else true)

mutual
/-- Height of the full struct tree (all fields). -/
def depthT : TypeDef → Nat
  | .mk _ s m _ _ => 1 + max (depthO s) (depthM m)

def depthO : OptTD → Nat
  | .none => 0
  | .some c => depthT c

def depthM : TDMap → Nat
  | .nil => 0
  | .cons _ e rest => max (depthT e) (depthM rest)
end

/-- Maximal height of the binding values. -/
def depthB : List (String × TypeDef) → Nat
  | [] => 0
  | p :: rest => max (depthT p.2) (depthB rest)

mutual
/-- Modelled from the claim's words (C5): the one-pass substitution that
replaces every `generic` node whose identifier is a key of the bindings
with a deep copy of the bound TypeDef, recurses into stream children and
map entries, and leaves every other node — in particular unbound generic
nodes — unchanged. -/
def sgSpec (b : List (String × TypeDef)) : TypeDef → TypeDef
  | .mk t s m g v =>
    if t = "generic" then
      match lookupKey g b with
      | Option.some pd => pd.copy
      | Option.none => .mk t s m g v
    else if t = "stream" then .mk t (sgSpecO b s) m g v
    else if t = "map" then .mk t s (sgSpecM b m) g v
    else .mk t s m g v

def sgSpecO (b : List (String × TypeDef)) : OptTD → OptTD
  | .none => .none
  | .some c => .some (sgSpec b c)

def sgSpecM (b : List (String × TypeDef)) : TDMap → TDMap
  | .nil => .nil
  | .cons k e rest => .cons k (sgSpec b e) (sgSpecM b rest)
end

mutual
theorem copy_wfgen : ∀ t : TypeDef, t.copy.wfgen = t.wfgen
  | .mk t s m g v => by
    simp [TypeDef.copy, TypeDef.wfgen, copy_wfgenO s, copy_wfgenM m]

theorem copy_wfgenO : ∀ s : OptTD, s.copyO.wfgenO = s.wfgenO
  | .none => rfl
  | .some c => by simp [OptTD.copyO, OptTD.wfgenO, copy_wfgen c]

theorem copy_wfgenM : ∀ m : TDMap, m.copyM.wfgenM = m.wfgenM
  | .nil => rfl
  | .cons k e rest => by
    simp [TDMap.copyM, TDMap.wfgenM, copy_wfgen e, copy_wfgenM rest]
end

mutual
theorem copy_wsf : ∀ t : TypeDef, t.copy.wsf = t.wsf
  | .mk t s m g v => by
    simp [TypeDef.copy, TypeDef.wsf, copy_wsfO s, copy_wsfM m]

theorem copy_wsfO : ∀ s : OptTD, s.copyO.wsfO = s.wsfO
  | .none => rfl
  | .some c => by simp [OptTD.copyO, OptTD.wsfO, copy_wsf c]

theorem copy_wsfM : ∀ m : TDMap, m.copyM.wsfM = m.wsfM
  | .nil => rfl
  | .cons k e rest => by
    simp [TDMap.copyM, TDMap.wsfM, copy_wsf e, copy_wsfM rest]
end

mutual
theorem copy_noBound : ∀ (ks : List String) (t : TypeDef), t.copy.noBound ks = t.noBound ks
  | ks, .mk t s m g v => by
    simp [TypeDef.copy, TypeDef.noBound, copy_noBoundO ks s, copy_noBoundM ks m]

theorem copy_noBoundO : ∀ (ks : List String) (s : OptTD), s.copyO.noBoundO ks = s.noBoundO ks
  | _, .none => rfl
  | ks, .some c => by simp [OptTD.copyO, OptTD.noBoundO, copy_noBound ks c]

theorem copy_noBoundM : ∀ (ks : List String) (m : TDMap), m.copyM.noBoundM ks = m.noBoundM ks
  | _, .nil => rfl
  | ks, .cons k e rest => by
    simp [TDMap.copyM, TDMap.noBoundM, copy_noBound ks e, copy_noBoundM ks rest]
end

mutual
theorem copy_depthT : ∀ t : TypeDef, depthT t.copy = depthT t
  | .mk t s m g v => by
    simp [TypeDef.copy, depthT, copy_depthO s, copy_depthM m]

theorem copy_depthO : ∀ s : OptTD, depthO s.copyO = depthO s
  | .none => rfl
  | .some c => by simp [OptTD.copyO, depthO, copy_depthT c]

theorem copy_depthM : ∀ m : TDMap, depthM m.copyM = depthM m
  | .nil => rfl
  | .cons k e rest => by
    simp [TDMap.copyM, depthM, copy_depthT e, copy_depthM rest]
end

mutual
theorem copy_copyFixed : ∀ t : TypeDef, t.copy.copyFixed = true
  | .mk t s m g v => by
    simp [TypeDef.copy, TypeDef.copyFixed, copy_copyFixedO s, copy_copyFixedM m]

theorem copy_copyFixedO : ∀ s : OptTD, s.copyO.copyFixedO = true
  | .none => rfl
  | .some c => by simp [OptTD.copyO, OptTD.copyFixedO, copy_copyFixed c]

theorem copy_copyFixedM : ∀ m : TDMap, m.copyM.copyFixedM = true
  | .nil => rfl
  | .cons k e rest => by
    simp [TDMap.copyM, TDMap.copyFixedM, copy_copyFixed e, copy_copyFixedM rest]
end

mutual
theorem copyFixed_copy_eq : ∀ t : TypeDef, t.copyFixed = true → t.copy = t
  | .mk t s m g v => by
    intro h
    simp only [TypeDef.copyFixed, Bool.and_eq_true, Bool.not_eq_true'] at h
    obtain ⟨⟨hv, hs⟩, hm⟩ := h
    subst hv
    simp [TypeDef.copy, copyFixedO_copy_eq s hs, copyFixedM_copy_eq m hm]

theorem copyFixedO_copy_eq : ∀ s : OptTD, s.copyFixedO = true → s.copyO = s
  | .none, _ => rfl
  | .some c, h => by
    simp only [OptTD.copyFixedO] at h
    simp [OptTD.copyO, copyFixed_copy_eq c h]

theorem copyFixedM_copy_eq : ∀ m : TDMap, m.copyFixedM = true → m.copyM = m
  | .nil, _ => rfl
  | .cons k e rest, h => by
    simp only [TDMap.copyFixedM, Bool.and_eq_true] at h
    simp [TDMap.copyM, copyFixed_copy_eq e h.1, copyFixedM_copy_eq rest h.2]
end

theorem copyFixed_subCopyFixed (t : TypeDef) (h : t.copyFixed = true) : t.subCopyFixed = true := by
  obtain ⟨ty, s, m, g, v⟩ := t
  simp only [TypeDef.copyFixed, Bool.and_eq_true, Bool.not_eq_true'] at h
  simp [TypeDef.subCopyFixed, h.1.2, h.2]

theorem depthT_pos (t : TypeDef) : 1 ≤ depthT t := by
  obtain ⟨ty, s, m, g, v⟩ := t
  simp [depthT]

theorem copy_copy (t : TypeDef) : t.copy.copy = t.copy :=
  copyFixed_copy_eq _ (copy_copyFixed t)

/-- Keys and lookups agree: an identifier is among the binding keys iff its
lookup succeeds. -/
theorem contains_keysOf_eq (b : List (String × TypeDef)) (g : String) :
    (keysOf b).contains g = (lookupKey g b).isSome := by
  induction b with
  | nil => rfl
  | cons p rest ih =>
    obtain ⟨k, pd⟩ := p
    simp only [keysOf, List.map_cons, List.contains_cons, lookupKey]
    by_cases hk : k = g
    · subst hk
      simp
    · rw [if_neg hk]
      have hbk : (g == k) = false := by simp [Ne.symm hk]
      simp only [hbk, Bool.false_or]
      exact ih

mutual
theorem sgSpec_nilT : ∀ t : TypeDef, sgSpec [] t = t
  | .mk t s m g v => by
    simp only [sgSpec, lookupKey, sgSpec_nilO s, sgSpec_nilM m]
    split_ifs <;> rfl

theorem sgSpec_nilO : ∀ s : OptTD, sgSpecO [] s = s
  | .none => rfl
  | .some c => by simp [sgSpecO, sgSpec_nilT c]

theorem sgSpec_nilM : ∀ m : TDMap, sgSpecM [] m = m
  | .nil => rfl
  | .cons k e rest => by simp [sgSpecM, sgSpec_nilT e, sgSpec_nilM rest]
end

mutual
theorem noBound_nilT : ∀ t : TypeDef, t.noBound [] = true
  | .mk t s m g v => by
    simp [TypeDef.noBound, noBound_nilO s, noBound_nilM m]

theorem noBound_nilO : ∀ s : OptTD, s.noBoundO [] = true
  | .none => rfl
  | .some c => by simp [OptTD.noBoundO, noBound_nilT c]

theorem noBound_nilM : ∀ m : TDMap, m.noBoundM [] = true
  | .nil => rfl
  | .cons k e rest => by simp [TDMap.noBoundM, noBound_nilT e, noBound_nilM rest]
end

mutual
theorem sgSpec_copy (b : List (String × TypeDef)) : ∀ t : TypeDef, sgSpec b t.copy = (sgSpec b t).copy
  | .mk t s m g v => by
    by_cases hg : t = "generic"
    · subst hg
      simp only [TypeDef.copy, sgSpec]
      cases hlk : lookupKey g b with
      | none => simp [TypeDef.copy]
      | some pd => simp [copy_copy pd]
    · by_cases hstr : t = "stream"
      · subst hstr
        simp only [TypeDef.copy, sgSpec, if_neg (by decide : ¬ ("stream" : String) = "generic"),
          if_pos rfl]
        simp [sgSpecO_copy b s]
      · by_cases hmap : t = "map"
        · subst hmap
          simp only [TypeDef.copy, sgSpec, if_neg (by decide : ¬ ("map" : String) = "generic"),
            if_neg (by decide : ¬ ("map" : String) = "stream"), if_pos rfl]
          simp [sgSpecM_copy b m]
        · simp only [TypeDef.copy, sgSpec, if_neg hg, if_neg hstr, if_neg hmap]

theorem sgSpecO_copy (b : List (String × TypeDef)) : ∀ s : OptTD, sgSpecO b s.copyO = (sgSpecO b s).copyO
  | .none => rfl
  | .some c => by simp [OptTD.copyO, sgSpecO, sgSpec_copy b c]

theorem sgSpecM_copy (b : List (String × TypeDef)) : ∀ m : TDMap, sgSpecM b m.copyM = (sgSpecM b m).copyM
  | .nil => rfl
  | .cons k e rest => by simp [TDMap.copyM, sgSpecM, sgSpec_copy b e, sgSpecM_copy b rest]
end

/-- Scanning behavior of the binding loop on a node that is neither a
stream nor a map: the first binding matching the node's `Generic`
identifier replaces it by a copy; with no match the node is unchanged. -/
theorem sgLoop_scan (ty : String) (s : OptTD) (m : TDMap) (g : String) (v : Bool)
    (hstr : ty ≠ "stream") (hmap : ty ≠ "map") :
    ∀ (rem full : List (String × TypeDef)) (fuel : Nat),
      sgLoop (fuel + 1) (.mk ty s m g v) rem full =
        (match lookupKey g rem with
         | Option.some pd => SgR.ok pd.copy
         | Option.none => SgR.ok (.mk ty s m g v)) := by
  intro rem
  induction rem with
  | nil =>
    intro full fuel
    simp [sgLoop, lookupKey]
  | cons p rest ih =>
    obtain ⟨id, pd⟩ := p
    intro full fuel
    rw [sgLoop.eq_def]
    simp only [lookupKey]
    by_cases hg : g = id
    · rw [if_pos hg, if_pos hg.symm]
    · rw [if_neg hg, if_neg hstr, if_neg hmap, ih full fuel, if_neg (fun h => hg h.symm)]

mutual
/-- Identity of the binding loop on a TypeDef in which no binding can fire
(no node carries a bound identifier) and whose traversed children are
copy-fixed: re-running the loop leaves it unchanged. -/
theorem sg_identity (b : List (String × TypeDef)) :
    ∀ (fuel : Nat) (rem : List (String × TypeDef)) (u : TypeDef),
      (∀ p ∈ rem, p.1 ∈ keysOf b) → u.noBound (keysOf b) = true → u.wfgen = true →
      u.wsf = true → u.subCopyFixed = true → depthT u ≤ fuel →
      sgLoop fuel u rem b = .ok u
  | 0, _, u => by
    intro _ _ _ _ _ hd
    exact absurd hd (by have := depthT_pos u; omega)
  | fuel + 1, [], u => by
    intro _ _ _ _ _ _
    simp [sgLoop]
  | fuel + 1, (id, pd) :: rest, u => by
    intro hrem hnb hwf hws hsc hd
    obtain ⟨ty, s, m, g, v⟩ := u
    have hcont : (keysOf b).contains g = false := by
      have h := hnb
      simp only [TypeDef.noBound, Bool.and_eq_true, Bool.not_eq_true'] at h
      exact h.1.1
    have hgid : g ≠ id := by
      intro he
      have hid : id ∈ keysOf b := hrem (id, pd) (List.mem_cons_self _ _)
      have hc : (keysOf b).contains g = true := by
        rw [he]
        simpa using hid
      rw [hcont] at hc
      cases hc
    rw [sgLoop.eq_def]
    simp only
    rw [if_neg hgid]
    by_cases hstr : ty = "stream"
    · subst hstr
      cases s with
      | none => simp [TypeDef.wsf, OptTD.wsfO] at hws
      | some c =>
        rw [if_pos rfl]
        simp only
        have hcf : c.copyFixed = true := by
          simpa [TypeDef.subCopyFixed, OptTD.copyFixedO] using hsc
        have hceq : c.copy = c := copyFixed_copy_eq c hcf
        rw [hceq]
        have hnbc : c.noBound (keysOf b) = true := by
          have h := hnb
          simp only [TypeDef.noBound, Bool.and_eq_true] at h
          simpa [OptTD.noBoundO] using h.1.2
        have hwfc : c.wfgen = true := by
          have h := hwf
          simp only [TypeDef.wfgen, Bool.and_eq_true] at h
          simpa [OptTD.wfgenO] using h.1.2
        have hwsc : c.wsf = true := by
          have h := hws
          simp only [TypeDef.wsf, Bool.and_eq_true] at h
          simpa [OptTD.wsfO] using h.1
        have hrec := sg_identity b fuel b c (fun p hp => List.mem_map_of_mem _ hp)
          hnbc hwfc hwsc (copyFixed_subCopyFixed c hcf)
          (by simp only [depthT, depthO] at hd; omega)
        rw [hrec]
        rfl
    · by_cases hmap : ty = "map"
      · subst hmap
        rw [if_neg hstr, if_pos rfl]
        have hcfm : m.copyFixedM = true := by
          simpa [TypeDef.subCopyFixed] using hsc
        have hnbm : m.noBoundM (keysOf b) = true := by
          have h := hnb
          simp only [TypeDef.noBound, Bool.and_eq_true] at h
          simpa using h.2
        have hwfm : m.wfgenM = true := by
          have h := hwf
          simp only [TypeDef.wfgen, Bool.and_eq_true] at h
          simpa using h.2
        have hwsm : m.wsfM = true := by
          have h := hws
          simp only [TypeDef.wsf, Bool.and_eq_true] at h
          simpa using h.2
        have hrecM := sg_identityM b fuel m hnbm hwfm hwsm hcfm
          (by simp only [depthT] at hd; omega)
        rw [hrecM]
        simp only [SgR.bindS]
        exact sg_identity b (fuel + 1) rest (.mk "map" s m g v)
          (fun p hp => hrem p (List.mem_cons_of_mem _ hp)) hnb hwf hws hsc hd
      · rw [if_neg hstr, if_neg hmap]
        exact sg_identity b (fuel + 1) rest (.mk ty s m g v)
          (fun p hp => hrem p (List.mem_cons_of_mem _ hp)) hnb hwf hws hsc hd
termination_by fuel rem u => (fuel, rem.length)
decreasing_by
  all_goals simp_wf
  all_goals
    first
      | exact Prod.Lex.left _ _ (by omega)
      | exact Prod.Lex.right _ (by simp [TDMap.lengthM]; try omega)

/-- Entry-list version of `sg_identity`. -/
theorem sg_identityM (b : List (String × TypeDef)) :
    ∀ (fuel : Nat) (m : TDMap),
      m.noBoundM (keysOf b) = true → m.wfgenM = true → m.wsfM = true →
      m.copyFixedM = true → depthM m ≤ fuel →
      sgMapEntries fuel m b = .ok m
  | fuel, .nil => by
    intro _ _ _ _ _
    simp [sgMapEntries]
  | fuel, .cons k e rest => by
    intro hnb hwf hws hcf hd
    simp only [TDMap.noBoundM, TDMap.wfgenM, TDMap.wsfM, TDMap.copyFixedM,
      Bool.and_eq_true] at hnb hwf hws hcf
    simp only [depthM] at hd
    have hee : e.copy = e := copyFixed_copy_eq e hcf.1
    simp only [sgMapEntries]
    rw [hee]
    rw [sg_identity b fuel b e (fun p hp => List.mem_map_of_mem _ hp)
      hnb.1 hwf.1 hws.1 (copyFixed_subCopyFixed e hcf.1) (by omega)]
    simp only [SgR.bindS]
    rw [sg_identityM b fuel rest hnb.2 hwf.2 hws.2 hcf.2 (by omega)]
termination_by fuel m => (fuel, b.length + 1 + m.lengthM)
decreasing_by
  all_goals simp_wf
  all_goals
    first
      | exact Prod.Lex.left _ _ (by omega)
      | exact Prod.Lex.right _ (by simp [TDMap.lengthM]; try omega)
end

theorem lookupKey_mem {g : String} {b : List (String × TypeDef)} {pd : TypeDef}
    (h : lookupKey g b = Option.some pd) : (g, pd) ∈ b := by
  induction b with
  | nil => cases h
  | cons q rest ih =>
    obtain ⟨k, v⟩ := q
    simp only [lookupKey] at h
    by_cases hk : k = g
    · subst hk
      rw [if_pos rfl] at h
      cases h
      exact List.mem_cons_self _ _
    · rw [if_neg hk] at h
      exact List.mem_cons_of_mem _ (ih h)

theorem depthB_mem {p : String × TypeDef} {b : List (String × TypeDef)}
    (h : p ∈ b) : depthT p.2 ≤ depthB b := by
  induction b with
  | nil => cases h
  | cons q rest ih =>
    rcases List.mem_cons.mp h with h1 | h1
    · subst h1
      simp [depthB]
    · simp only [depthB]
      exact le_trans (ih h1) (by omega)

theorem contains_empty_key {b : List (String × TypeDef)}
    (hkeys : ∀ p ∈ b, p.1 ≠ "") : (keysOf b).contains "" = false := by
  induction b with
  | nil => rfl
  | cons q rest ih =>
    simp only [keysOf, List.map_cons, List.contains_cons]
    have h1 : ("" == q.1) = false := by
      simp [Ne.symm (hkeys q (List.mem_cons_self _ _))]
    rw [h1, Bool.false_or]
    exact ih (fun p hp => hkeys p (List.mem_cons_of_mem _ hp))

theorem lookupKey_empty_none {b : List (String × TypeDef)}
    (hkeys : ∀ p ∈ b, p.1 ≠ "") : lookupKey "" b = Option.none := by
  have h := contains_empty_key hkeys
  rw [contains_keysOf_eq] at h
  cases hl : lookupKey "" b with
  | none => rfl
  | some pd => rw [hl] at h; cases h

mutual
/-- Main characterization of the binding loop (one full run on the whole
binding list): for generic-well-formed, well-shaped input, with non-empty
binding keys whose values contain no bound identifier, the run returns a
TypeDef that equals (up to the private valid flags, i.e. after `Copy`)
the claim's one-pass substitution `sgSpec`, contains no bound identifier
any more, and keeps all well-formedness invariants. -/
theorem sg_correct (b : List (String × TypeDef))
    (hkeys : ∀ p ∈ b, p.1 ≠ "")
    (hvals : ∀ p ∈ b, p.2.wfgen = true ∧ p.2.wsf = true ∧ p.2.noBound (keysOf b) = true) :
    ∀ (fuel : Nat) (t : TypeDef),
      t.wfgen = true → t.wsf = true → depthT t + depthB b ≤ fuel →
      ∃ t', sgLoop fuel t b b = .ok t'
        ∧ t'.copy = (sgSpec b t).copy
        ∧ t'.noBound (keysOf b) = true ∧ t'.wfgen = true ∧ t'.wsf = true
        ∧ (t.copyFixed = true → t'.copyFixed = true)
        ∧ (b ≠ [] → t'.subCopyFixed = true)
        ∧ depthT t' ≤ depthT t + depthB b
  | 0 => by
    intro t hwf hws hfd
    exact absurd hfd (by have := depthT_pos t; omega)
  | fuel + 1 => by
    intro t hwf hws hfd
    obtain ⟨ty, s, m, g, v⟩ := t
    by_cases hb : b = []
    · subst hb
      refine ⟨.mk ty s m g v, by simp [sgLoop], by rw [sgSpec_nilT], noBound_nilT _,
        hwf, hws, fun h => h, fun hne => absurd rfl hne, by simp [depthB]⟩
    · obtain ⟨q, qs, rfl⟩ : ∃ q qs, b = q :: qs := by
        cases b with
        | nil => exact absurd rfl hb
        | cons q qs => exact ⟨q, qs, rfl⟩
      obtain ⟨id, pd⟩ := q
      have hidne : id ≠ "" := hkeys (id, pd) (List.mem_cons_self _ _)
      by_cases hstr : ty = "stream"
      · -- stream node
        subst hstr
        have hg : g = "" := by
          simp only [TypeDef.wfgen, Bool.and_eq_true, Bool.or_eq_true, beq_iff_eq] at hwf
          rcases hwf.1.1 with h | h
          · exact absurd h (by decide)
          · exact h
        subst hg
        cases s with
        | none => simp [TypeDef.wsf, OptTD.wsfO] at hws
        | some c =>
          have hwfc : c.wfgen = true := by
            simp only [TypeDef.wfgen, Bool.and_eq_true] at hwf
            simpa [OptTD.wfgenO] using hwf.1.2
          have hwsc : c.wsf = true := by
            simp only [TypeDef.wsf, Bool.and_eq_true] at hws
            simpa [OptTD.wsfO] using hws.1
          obtain ⟨c', hcok, hccopy, hcnb, hcwf, hcws, hccf, hcsub, hcd⟩ :=
            sg_correct ((id, pd) :: qs) hkeys hvals fuel c.copy
              (by rw [copy_wfgen]; exact hwfc)
              (by rw [copy_wsf]; exact hwsc)
              (by rw [copy_depthT]
                  simp only [depthT, depthO] at hfd
                  have := Nat.le_max_left (depthT c) (depthM m)
                  omega)
          have hccf' : c'.copyFixed = true := hccf (copy_copyFixed c)
          have hc2 : c'.copy = (sgSpec ((id, pd) :: qs) c).copy := by
            rw [hccopy, sgSpec_copy, copy_copy]
          refine ⟨.mk "stream" (.some c') m "" v, ?_, ?_, ?_, ?_, ?_, ?_, ?_, ?_⟩
          · rw [sgLoop.eq_def]
            simp only [if_true, if_false]
            rw [if_neg (fun h => hidne h.symm), hcok]
            rfl
          · have hspec : sgSpec ((id, pd) :: qs) (.mk "stream" (.some c) m "" v)
                = .mk "stream" (.some (sgSpec ((id, pd) :: qs) c)) m "" v := rfl
            rw [hspec]
            simp only [TypeDef.copy, OptTD.copyO]
            rw [hc2]
          · simp only [TypeDef.noBound, OptTD.noBoundO, Bool.and_eq_true, Bool.not_eq_true']
            refine ⟨⟨contains_empty_key hkeys, ?_⟩, ?_⟩
            · simp [OptTD.noBoundO, hcnb]
            · simp
          · simp only [TypeDef.wfgen, Bool.and_eq_true]
            refine ⟨⟨by simp, ?_⟩, by simp⟩
            simp [OptTD.wfgenO, hcwf]
          · simp only [TypeDef.wsf, Bool.and_eq_true]
            refine ⟨?_, by simp⟩
            simp [OptTD.wsfO, hcws]
          · intro h
            simp only [TypeDef.copyFixed, Bool.and_eq_true, Bool.not_eq_true',
              OptTD.copyFixedO] at h ⊢
            exact ⟨⟨h.1.1, hccf'⟩, h.2⟩
          · intro _
            simp [TypeDef.subCopyFixed, OptTD.copyFixedO, hccf']
          · simp only [depthT, depthO]
            have h1 : depthT c' ≤ depthT c + depthB ((id, pd) :: qs) := by
              rw [copy_depthT] at hcd
              exact hcd
            have h2 := Nat.le_max_left (depthT c) (depthM m)
            have h3 := Nat.le_max_right (depthT c) (depthM m)
            have h4 : max (depthT c') (depthM m)
                ≤ max (depthT c) (depthM m) + depthB ((id, pd) :: qs) := by
              apply Nat.max_le.mpr
              exact ⟨le_trans h1 (by omega), by omega⟩
            omega
      · by_cases hmap : ty = "map"
        · -- map node
          subst hmap
          have hg : g = "" := by
            simp only [TypeDef.wfgen, Bool.and_eq_true, Bool.or_eq_true, beq_iff_eq] at hwf
            rcases hwf.1.1 with h | h
            · exact absurd h (by decide)
            · exact h
          subst hg
          have hwfm : m.wfgenM = true := by
            simp only [TypeDef.wfgen, Bool.and_eq_true] at hwf
            simpa using hwf.2
          have hwsm : m.wsfM = true := by
            simp only [TypeDef.wsf, Bool.and_eq_true] at hws
            simpa using hws.2
          obtain ⟨m', hmok, hmcopy, hmnb, hmwf, hmws, hmcf, hmd⟩ :=
            sg_correctM ((id, pd) :: qs) hkeys hvals fuel m hwfm hwsm
              (by simp only [depthT] at hfd
                  have := Nat.le_max_right (depthO s) (depthM m)
                  omega)
          have hnode : (TypeDef.mk "map" s m' "" v).noBound (keysOf ((id, pd) :: qs)) = true := by
            simp only [TypeDef.noBound, Bool.and_eq_true, Bool.not_eq_true']
            exact ⟨⟨contains_empty_key hkeys, by simp⟩, by simp [hmnb]⟩
          have hnodewf : (TypeDef.mk "map" s m' "" v).wfgen = true := by
            simp only [TypeDef.wfgen, Bool.and_eq_true]
            exact ⟨⟨by simp, by simp⟩, by simp [hmwf]⟩
          have hnodews : (TypeDef.mk "map" s m' "" v).wsf = true := by
            simp only [TypeDef.wsf, Bool.and_eq_true]
            exact ⟨by simp, by simp [hmws]⟩
          have hnodesc : (TypeDef.mk "map" s m' "" v).subCopyFixed = true := by
            simp [TypeDef.subCopyFixed, hmcf]
          have hnoded : depthT (TypeDef.mk "map" s m' "" v)
              ≤ depthT (.mk "map" s m "" v) + depthB ((id, pd) :: qs) := by
            simp only [depthT]
            have h2 := Nat.le_max_left (depthO s) (depthM m)
            have h3 := Nat.le_max_right (depthO s) (depthM m)
            have h4 : max (depthO s) (depthM m')
                ≤ max (depthO s) (depthM m) + depthB ((id, pd) :: qs) := by
              apply Nat.max_le.mpr
              exact ⟨by omega, le_trans hmd (by omega)⟩
            omega
          refine ⟨.mk "map" s m' "" v, ?_, ?_, hnode, hnodewf, hnodews, ?_, fun _ => hnodesc,
            hnoded⟩
          · rw [sgLoop.eq_def]
            simp only [if_true, if_false]
            rw [if_neg (fun h => hidne h.symm), hmok]
            simp only [SgR.bindS]
            exact sg_identity ((id, pd) :: qs) (fuel + 1) qs (.mk "map" s m' "" v)
              (fun p hp => List.mem_cons_of_mem _ (List.mem_map_of_mem _ hp))
              hnode hnodewf hnodews hnodesc (by omega)
          · have hspec : sgSpec ((id, pd) :: qs) (.mk "map" s m "" v)
                = .mk "map" s (sgSpecM ((id, pd) :: qs) m) "" v := rfl
            rw [hspec]
            simp only [TypeDef.copy]
            rw [hmcopy]
          · intro h
            simp only [TypeDef.copyFixed, Bool.and_eq_true, Bool.not_eq_true'] at h ⊢
            exact ⟨⟨h.1.1, h.1.2⟩, hmcf⟩
        · -- neither stream nor map: the loop just scans for the identifier
          rw [sgLoop_scan ty s m g v hstr hmap ((id, pd) :: qs) ((id, pd) :: qs) fuel]
          cases hlk : lookupKey g ((id, pd) :: qs) with
          | some pdm =>
            have hmem : (g, pdm) ∈ (id, pd) :: qs := lookupKey_mem hlk
            have hval := hvals (g, pdm) hmem
            have hgne : g ≠ "" := hkeys (g, pdm) hmem
            have hty : ty = "generic" := by
              simp only [TypeDef.wfgen, Bool.and_eq_true, Bool.or_eq_true, beq_iff_eq] at hwf
              rcases hwf.1.1 with h | h
              · exact h
              · exact absurd h hgne
            subst hty
            refine ⟨pdm.copy, rfl, ?_, ?_, ?_, ?_, fun _ => copy_copyFixed pdm,
              fun _ => copyFixed_subCopyFixed _ (copy_copyFixed pdm), ?_⟩
            · have hspec : sgSpec ((id, pd) :: qs) (.mk "generic" s m g v)
                  = (match lookupKey g ((id, pd) :: qs) with
                     | Option.some pdq => pdq.copy
                     | Option.none => .mk "generic" s m g v) := rfl
              rw [hspec, hlk]
            · rw [copy_noBound]
              exact hval.2.2
            · rw [copy_wfgen]
              exact hval.1
            · rw [copy_wsf]
              exact hval.2.1
            · rw [copy_depthT]
              have := depthB_mem hmem
              simp only at this
              omega
          | none =>
            have hcont : (keysOf ((id, pd) :: qs)).contains g = false := by
              rw [contains_keysOf_eq, hlk]
              rfl
            have hspec : sgSpec ((id, pd) :: qs) (.mk ty s m g v) = .mk ty s m g v := by
              simp only [sgSpec]
              by_cases h1 : ty = "generic"
              · rw [if_pos h1, hlk]
              · rw [if_neg h1, if_neg hstr, if_neg hmap]
            refine ⟨.mk ty s m g v, rfl, by rw [hspec], ?_, hwf, hws, fun h => h, ?_, by omega⟩
            · simp only [TypeDef.noBound, Bool.and_eq_true, Bool.not_eq_true']
              refine ⟨⟨hcont, ?_⟩, ?_⟩ <;> simp [hstr, hmap]
            · intro _
              simp [TypeDef.subCopyFixed, hstr, hmap]
termination_by fuel => (fuel, 0)
decreasing_by
  all_goals simp_wf
  all_goals
    first
      | exact Prod.Lex.left _ _ (by omega)
      | exact Prod.Lex.right _ (by omega)

/-- Entry-list version of `sg_correct`. -/
theorem sg_correctM (b : List (String × TypeDef))
    (hkeys : ∀ p ∈ b, p.1 ≠ "")
    (hvals : ∀ p ∈ b, p.2.wfgen = true ∧ p.2.wsf = true ∧ p.2.noBound (keysOf b) = true) :
    ∀ (fuel : Nat) (m : TDMap),
      m.wfgenM = true → m.wsfM = true → depthM m + depthB b ≤ fuel →
      ∃ m', sgMapEntries fuel m b = .ok m'
        ∧ m'.copyM = (sgSpecM b m).copyM
        ∧ m'.noBoundM (keysOf b) = true ∧ m'.wfgenM = true ∧ m'.wsfM = true
        ∧ m'.copyFixedM = true
        ∧ depthM m' ≤ depthM m + depthB b
  | fuel, .nil => by
    intro _ _ _
    exact ⟨.nil, by simp [sgMapEntries], rfl, rfl, rfl, rfl, rfl, by omega⟩
  | fuel, .cons k e rest => by
    intro hwf hws hfd
    simp only [TDMap.wfgenM, TDMap.wsfM, Bool.and_eq_true] at hwf hws
    simp only [depthM] at hfd
    have h2 := Nat.le_max_left (depthT e) (depthM rest)
    have h3 := Nat.le_max_right (depthT e) (depthM rest)
    obtain ⟨e', heok, hecopy, henb, hewf, hews, hecf, hesub, hed⟩ :=
      sg_correct b hkeys hvals fuel e.copy
        (by rw [copy_wfgen]; exact hwf.1)
        (by rw [copy_wsf]; exact hws.1)
        (by rw [copy_depthT]; omega)
    obtain ⟨rest', hrok, hrcopy, hrnb, hrwf, hrws, hrcf, hrd⟩ :=
      sg_correctM b hkeys hvals fuel rest hwf.2 hws.2 (by omega)
    have hecf' : e'.copyFixed = true := hecf (copy_copyFixed e)
    refine ⟨.cons k e' rest', ?_, ?_, ?_, ?_, ?_, ?_, ?_⟩
    · simp only [sgMapEntries]
      rw [heok]
      simp only [SgR.bindS]
      rw [hrok]
    · simp only [sgSpecM, TDMap.copyM]
      rw [hrcopy]
      have he2 : e'.copy = (sgSpec b e).copy := by
        rw [hecopy, sgSpec_copy, copy_copy]
      rw [he2]
    · simp [TDMap.noBoundM, henb, hrnb]
    · simp [TDMap.wfgenM, hewf, hrwf]
    · simp [TDMap.wsfM, hews, hrws]
    · simp [TDMap.copyFixedM, hecf', hrcf]
    · simp only [depthM]
      rw [copy_depthT] at hed
      have h4 : max (depthT e') (depthM rest') ≤ max (depthT e) (depthM rest) + depthB b := by
        apply Nat.max_le.mpr
        exact ⟨by omega, by omega⟩
      omega
termination_by fuel m => (fuel, 1 + m.lengthM)
decreasing_by
  all_goals simp_wf
  all_goals
    first
      | exact Prod.Lex.left _ _ (by omega)
      | exact Prod.Lex.right _ (by simp [TDMap.lengthM]; try omega)
end

/-- C5 (amended): for generic-well-formed, well-shaped TypeDefs and bindings
with non-empty keys whose values contain no bound identifier (no chained
bindings), `SpecifyGenerics` computes — up to the private `valid` flags,
which deep copies reset — exactly the claim's substitution `sgSpec`:
every generic node bound in `b` becomes a deep copy of its binding,
recursion descends into stream children and map entries, unbound generic
nodes stay intact; and a second application returns its input unchanged
(idempotence).  Without the no-chained-bindings side condition idempotence
fails (`specifyGenerics_not_idempotent`). -/
theorem specifyGenerics_spec (b : List (String × TypeDef)) (t : TypeDef) (fuel : Nat)
    (hkeys : ∀ p ∈ b, p.1 ≠ "")
    (hvals : ∀ p ∈ b, p.2.wfgen = true ∧ p.2.wsf = true ∧ p.2.noBound (keysOf b) = true)
    (hwf : t.wfgen = true) (hws : t.wsf = true)
    (hfd : depthT t + depthB b ≤ fuel) :
    ∃ t', t.specifyGenerics fuel b = .ok t'
      ∧ t'.copy = (sgSpec b t).copy
      ∧ ∀ fuel', depthT t' ≤ fuel' → t'.specifyGenerics fuel' b = .ok t' := by
  obtain ⟨t', hok, hcopy, hnb, hwf', hws', hcf, hsub, hd⟩ :=
    sg_correct b hkeys hvals fuel t hwf hws hfd
  refine ⟨t', hok, hcopy, ?_⟩
  intro fuel' hdf
  by_cases hb : b = []
  · subst hb
    obtain ⟨k, rfl⟩ : ∃ k, fuel' = k + 1 := ⟨fuel' - 1, by have := depthT_pos t'; omega⟩
    simp [TypeDef.specifyGenerics, sgLoop]
  · exact sg_identity b fuel' b t' (fun p hp => List.mem_map_of_mem _ hp)
      hnb hwf' hws' (hsub hb) hdf

/-- Witness for `specifyGenerics_spec`: the S5-style substitution
`{g1 ↦ boolean}` applied to `generic g1`. -/
theorem specifyGenerics_spec_witness :
    ∃ t', TypeDef.specifyGenerics 5 (.mk "generic" .none .nil "g1" false)
        [("g1", .mk "boolean" .none .nil "" false)] = .ok t'
      ∧ t'.copy = (sgSpec [("g1", .mk "boolean" .none .nil "" false)]
          (.mk "generic" .none .nil "g1" false)).copy
      ∧ ∀ fuel', depthT t' ≤ fuel' →
          TypeDef.specifyGenerics fuel' t' [("g1", .mk "boolean" .none .nil "" false)] = .ok t' :=
  specifyGenerics_spec _ _ _ (by decide) (by decide) (by decide) (by decide) (by decide)

/-!  ## Property expression expansion (pkg/core/def.go, C3 and C10) -/

/-- Lookup in a Go `map[string]interface{}` property bag. -/
def lookupProp (k : String) : List (String × Value) → Option Value
  | [] => Option.none
  | (k', v) :: rest => if k' = k then Option.some v else lookupProp k rest

/-- Lazy scan of the regexp `{(.*?)}` after an opening brace: take
characters up to the first closing brace; fail on a newline (`.` does not
match one) or at the end of the string. -/
def takeToBrace : List Char → Option (List Char × List Char)
  | [] => Option.none
  | c :: rest =>
    if c = '}' then Option.some ([], rest)
    else if c = '\n' then Option.none
    else
      match takeToBrace rest with
      | Option.some (inner, rem) => Option.some (c :: inner, rem)
      | Option.none => Option.none

theorem takeToBrace_shorter :
    ∀ {l inner rem : List Char}, takeToBrace l = Option.some (inner, rem) →
      rem.length < l.length := by
  intro l
  induction l with
  | nil => intro inner rem h; cases h
  | cons c rest ih =>
    intro inner rem h
    unfold takeToBrace at h
    split_ifs at h with h1 h2
    · cases h
      simp
    · split at h
      · cases h
        have hlt := ih (by assumption)
        simp
        omega
      · cases h

/-- `regexp.MustCompile("{(.*?)}").FindAllStringSubmatch(expr, -1)`: all
non-overlapping leftmost matches, as (whole match, submatch) pairs. -/
def findMatches : List Char → List (List Char × List Char)
  | [] => []
  | c :: rest =>
    if c = '{' then
      match ht : takeToBrace rest with
      | Option.some (inner, rem) =>
        ('{' :: (inner ++ ['}']), inner) :: findMatches rem
      | Option.none => findMatches rest
    else findMatches rest
termination_by l => l.length
decreasing_by
  · simp
    exact Nat.lt_succ_of_lt (takeToBrace_shorter ht)
  · simp
  · simp

/-- `strings.Replace(s, old, new, 1)`: replace the first occurrence of
`old` in `s` (the last argument of the Lean function is `s`). -/
def replaceFirst (old new : List Char) : List Char → List Char
  | [] => if old.isPrefixOf [] then new else []
  | c :: rest =>
    if old.isPrefixOf (c :: rest) then new ++ (c :: rest).drop old.length
    else c :: replaceFirst old new rest

/-- `expandExpressionPart`: look up the property value (missing property:
error), dereference `propDefs[exprPart]` WITHOUT a nil check (a name
absent from `propDefs` panics), then produce one string per stream
element (the value is type-asserted to a slice: panic when it is not a
list) or a single formatted value. -/
def expandExpressionPart (exprPart : List Char) (props : List (String × Value))
    (propDefs : List (String × TypeDef)) : Res (List (List Char)) :=
  match lookupProp (String.mk exprPart) props with
  | Option.none => .err ("missing property " ++ String.mk exprPart)
  | Option.some prop =>
    match lookupKey (String.mk exprPart) propDefs with
    | Option.none => .panics
    | Option.some propDef =>
      if propDef.ty = "stream" then
        match prop with
        | .list els => .ok (els.toList.map (fun el => (fmtValue el).data))
        | _ => .panics
      else .ok [(fmtValue prop).data]

/-- The per-match replacement loop of `ExpandExpression`: for each match,
expand the submatch into values and replace the first occurrence of the
whole match in every accumulated expression, once per value. -/
def processMatches (props : List (String × Value)) (propDefs : List (String × TypeDef)) :
    List (List Char × List Char) → List (List Char) → Res (List (List Char))
  | [], exprs => .ok exprs
  | (whole, inner) :: rest, exprs =>
    (expandExpressionPart inner props propDefs).bindR (fun vals =>
      processMatches props propDefs rest
        (vals.flatMap (fun val => exprs.map (fun e => replaceFirst whole val e))))

/-- `ExpandExpression`: find all `{name}` matches of the expression (the
outer Go loop ranges over the original one-element slice, so it runs one
iteration); with no match the expression is returned unchanged. -/
def expandExpression (expr : String) (props : List (String × Value))
    (propDefs : List (String × TypeDef)) : Res (List String) :=
  match findMatches expr.data with
  | [] => .ok [expr]
  | ms => (processMatches props propDefs ms [expr.data]).mapR (fun l => l.map String.mk)

/-- C10: `ExpandExpression` is not total without the propDefs precondition:
with `{x}` in the expression, `x` present in props but absent from
propDefs, `expandExpressionPart` dereferences the nil `propDefs[exprPart]`
and panics instead of returning an error. -/
theorem expandExpression_nil_propdef_panics :
    expandExpression "{x}" [("x", Value.int 1)] [] = .panics ∧
    expandExpressionPart "x".data [("x", Value.int 1)] [] = .panics := by
  constructor
  · unfold expandExpression
    have hfm : findMatches "{x}".data = [(['{', 'x', '}'], ['x'])] := by
      rw [findMatches]
      simp [takeToBrace, findMatches]
    rw [hfm]
    simp [processMatches, expandExpressionPart, lookupProp, lookupKey, Res.bindR, Res.mapR]
  · simp [expandExpressionPart, lookupProp, lookupKey]

theorem takeToBrace_on (nm post : List Char) (h1 : '}' ∉ nm) (h2 : '\n' ∉ nm) :
    takeToBrace (nm ++ '}' :: post) = Option.some (nm, post) := by
  induction nm with
  | nil => simp [takeToBrace]
  | cons c rest ih =>
    simp only [List.mem_cons, not_or] at h1 h2
    simp only [List.cons_append, takeToBrace, List.append_eq]
    rw [if_neg (Ne.symm h1.1), if_neg (Ne.symm h2.1), ih h1.2 h2.2]

theorem findMatches_no_brace : ∀ (l : List Char), '{' ∉ l → findMatches l = [] := by
  intro l
  induction l with
  | nil => intro h; rw [findMatches]
  | cons c rest ih =>
    intro h
    simp only [List.mem_cons, not_or] at h
    rw [findMatches.eq_def]
    simp only
    rw [if_neg (Ne.symm h.1)]
    exact ih h.2

theorem findMatches_single (pre nm post : List Char)
    (hpre : '{' ∉ pre) (hnm1 : '}' ∉ nm) (hnm2 : '\n' ∉ nm) (hpost : '{' ∉ post) :
    findMatches (pre ++ '{' :: (nm ++ '}' :: post)) = [('{' :: (nm ++ ['}']), nm)] := by
  induction pre with
  | nil =>
    simp only [List.nil_append]
    rw [findMatches.eq_def]
    simp only
    simp only [if_true]
    split
    · rename_i inner rem ht
      rw [takeToBrace_on nm post hnm1 hnm2] at ht
      cases ht
      rw [findMatches_no_brace post hpost]
    · rename_i ht
      rw [takeToBrace_on nm post hnm1 hnm2] at ht
      cases ht
  | cons c pre' ih =>
    simp only [List.mem_cons, not_or] at hpre
    simp only [List.cons_append]
    rw [findMatches.eq_def]
    simp only
    rw [if_neg (Ne.symm hpre.1)]
    exact ih hpre.2

theorem isPrefixOf_append_self : ∀ (l r : List Char), l.isPrefixOf (l ++ r) = true := by
  intro l r
  induction l with
  | nil => simp [List.isPrefixOf]
  | cons c cs ih => simp [List.isPrefixOf, ih]

theorem replaceFirst_at (nm post val : List Char) :
    ∀ (pre : List Char), '{' ∉ pre →
      replaceFirst ('{' :: (nm ++ ['}'])) val (pre ++ '{' :: (nm ++ '}' :: post)) =
        pre ++ val ++ post := by
  intro pre
  induction pre with
  | nil =>
    intro _
    simp only [List.nil_append]
    have hs : '{' :: (nm ++ '}' :: post) = ('{' :: (nm ++ ['}'])) ++ post := by simp
    rw [replaceFirst, if_pos (by rw [hs]; exact isPrefixOf_append_self _ _)]
    rw [hs, List.drop_left]
  | cons c pre' ih =>
    intro hpre
    simp only [List.mem_cons, not_or] at hpre
    simp only [List.cons_append]
    rw [replaceFirst]
    have hnp : ¬(('{' :: (nm ++ ['}'])).isPrefixOf
        (c :: (pre' ++ '{' :: (nm ++ '}' :: post))) = true) := by
      simp only [List.isPrefixOf, Bool.and_eq_true, beq_iff_eq]
      intro hcontra
      exact hpre.1 hcontra.1
    rw [if_neg hnp, ih hpre.2]

theorem flatMap_single_replace (whole e : List Char) (vals : List (List Char)) :
    vals.flatMap (fun val => [e].map (fun x => replaceFirst whole val x)) =
      vals.map (fun val => replaceFirst whole val e) := by
  induction vals with
  | nil => rfl
  | cons v vs ih =>
    simp only [List.flatMap_cons, List.map_cons, List.map_nil, List.singleton_append]
    simp only [List.map_cons, List.map_nil] at ih
    rw [ih]

/-- C3: for every expression string containing exactly one placeholder
`{name}`: if `props[name]` exists and the declared type is stream and the
value is a list of k elements, ExpandExpression returns exactly k strings,
one per element in order, each the expression with the placeholder
replaced by the formatted element; if the declared type is not stream it
returns exactly one string; if `name` is absent from props it returns a
missing-property error. -/
theorem expandExpression_single_placeholder
    (expr name : String) (pre post : List Char)
    (props : List (String × Value)) (propDefs : List (String × TypeDef))
    (hd : expr.data = pre ++ '{' :: (name.data ++ '}' :: post))
    (hpre : '{' ∉ pre) (hn1 : '}' ∉ name.data) (hn2 : '\n' ∉ name.data)
    (hpost : '{' ∉ post) :
    (lookupProp name props = Option.none →
       expandExpression expr props propDefs = .err ("missing property " ++ name))
    ∧ (∀ els pd, lookupProp name props = Option.some (.list els) →
         lookupKey name propDefs = Option.some pd → pd.ty = "stream" →
         expandExpression expr props propDefs =
           .ok (els.toList.map (fun el => String.mk (pre ++ (fmtValue el).data ++ post))))
    ∧ (∀ v pd, lookupProp name props = Option.some v →
         lookupKey name propDefs = Option.some pd → pd.ty ≠ "stream" →
         expandExpression expr props propDefs =
           .ok [String.mk (pre ++ (fmtValue v).data ++ post)]) := by
  have hfm : findMatches expr.data = [('{' :: (name.data ++ ['}']), name.data)] := by
    rw [hd]
    exact findMatches_single pre name.data post hpre hn1 hn2 hpost
  have hmk : String.mk name.data = name := rfl
  have hval : ∀ (vals : List (List Char)),
      (processMatches props propDefs [] (vals.flatMap
        (fun val => [expr.data].map (fun e => replaceFirst ('{' :: (name.data ++ ['}'])) val e)))).mapR
          (fun l => l.map String.mk)
        = .ok (vals.map (fun val => String.mk (pre ++ val ++ post))) := by
    intro vals
    rw [flatMap_single_replace]
    unfold processMatches
    unfold Res.mapR
    simp only
    rw [List.map_map]
    refine congrArg Res.ok (List.map_congr_left ?_)
    intro val _
    simp only [Function.comp_apply]
    rw [hd, replaceFirst_at name.data post val pre hpre]
  refine ⟨?_, ?_, ?_⟩
  · intro hnone
    unfold expandExpression
    rw [hfm]
    simp only
    unfold processMatches expandExpressionPart
    rw [hmk, hnone]
    simp [Res.bindR, Res.mapR]
  · intro els pd hsome hpd hty
    unfold expandExpression
    rw [hfm]
    simp only
    unfold processMatches expandExpressionPart
    rw [hmk, hsome, hpd]
    simp only
    rw [if_pos hty]
    simp only [Res.bindR]
    rw [hval (els.toList.map (fun el => (fmtValue el).data))]
    rw [List.map_map]
    rfl
  · intro v pd hsome hpd hty
    unfold expandExpression
    rw [hfm]
    simp only
    unfold processMatches expandExpressionPart
    rw [hmk, hsome, hpd]
    simp only
    rw [if_neg hty]
    simp only [Res.bindR]
    rw [hval [(fmtValue v).data]]
    rfl

theorem expandExpression_single_placeholder_witness :
    expandExpression "a{p}b"
        [("p", Value.list (VList.cons (Value.str "x") (VList.cons (Value.str "y") VList.nil)))]
        [("p", TypeDef.mk "stream" (OptTD.some (TypeDef.mk "string" OptTD.none TDMap.nil "" false)) TDMap.nil "" false)]
      = .ok ["axb", "ayb"] := by
  have h := expandExpression_single_placeholder "a{p}b" "p" ['a'] ['b']
      [("p", Value.list (VList.cons (Value.str "x") (VList.cons (Value.str "y") VList.nil)))]
      [("p", TypeDef.mk "stream" (OptTD.some (TypeDef.mk "string" OptTD.none TDMap.nil "" false)) TDMap.nil "" false)]
      (by decide) (by decide) (by decide) (by decide) (by decide)
  exact (h.2.1 (VList.cons (Value.str "x") (VList.cons (Value.str "y") VList.nil))
      (TypeDef.mk "stream" (OptTD.some (TypeDef.mk "string" OptTD.none TDMap.nil "" false)) TDMap.nil "" false)
      rfl rfl rfl).trans (by decide)

/-!  ## The rand-range builtin operator (C8) -/

/-- Modelled from the spec: items flowing through ports are either control
markers (`core.IsMarker` distinguishes them) or data values. -/
inductive Item : Type where
  | marker (id : Nat)
  | data (v : Value)

/-- `core.IsMarker` on the item model. -/
def Item.isMarker : Item → Bool
  | .marker _ => true
  | .data _ => false

/-- Reduction of an integer into the two's-complement `int64` window
`[-2^63, 2^63)`: Go's machine `int` arithmetic wraps on overflow, so every
binary operation of the builtin body is reduced through this map. -/
def wrap64 (n : Int) : Int :=
  (n + 9223372036854775808) % 18446744073709551616 - 9223372036854775808

/-- `rand.Intn(n)`: panics when `n <= 0`, otherwise yields a value in
`[0, n)`; the randomness source is the oracle `r`.  For positive `n` in
the `int64` window the result is again in the window. -/
def randIntn (n : Int) (r : Nat) : Res Int :=
  if n ≤ 0 then .panics else .ok ((r : Int) % n)

/-- One iteration of the rand-range `opFunc` body on a pulled item:
markers are pushed unchanged; a data item is type-asserted to a map
(panic otherwise), `data["max"].(int)` and `data["min"].(int)` are
asserted (panic when absent or not an int) and
`min + rand.Intn(max-min+1)` is pushed, every operation in wrapping
machine-`int` arithmetic. -/
def randRangeStep (i : Item) (r : Nat) : Res Item :=
  match i with
  | .marker m => .ok (.marker m)
  | .data v =>
    match v with
    | .vmap m =>
      match m.lookup "max", m.lookup "min" with
      | Option.some (.int mx), Option.some (.int mn) =>
        (randIntn (wrap64 (wrap64 (mx - mn) + 1)) r).mapR
          (fun x => .data (.int (wrap64 (mn + x))))
      | _, _ => .panics
    | _ => .panics

theorem wrap64_eq (n : Int) (h1 : -9223372036854775808 ≤ n)
    (h2 : n < 9223372036854775808) : wrap64 n = n := by
  unfold wrap64
  omega

/-- C8 counterexample: with `min = -2^62` and `max = 2^62` (both valid
`int64` values with min <= max) the machine-int expression `max-min+1`
wraps to a negative number, so `rand.Intn` panics and nothing is pushed,
against the claim's promised in-range push for every `a ≤ b`. -/
theorem randRange_overflow_panics :
    randRangeStep
        (.data (.vmap (VMap.cons "min" (.int (-4611686018427387904))
          (VMap.cons "max" (.int 4611686018427387904) VMap.nil)))) 0 = .panics
    ∧ (-4611686018427387904 : Int) ≤ 4611686018427387904 := by
  constructor
  · unfold randRangeStep
    simp only [VMap.lookup, if_true]
    rfl
  · decide

/-- C8 (amended): for every pulled data value `{min: a, max: b}` with
`int64` integers `a ≤ b` such that `b - a + 1` does not overflow the
machine `int`, the rand-range body pushes an integer `x` with
`a ≤ x ≤ b` (computed as `min + rand.Intn(max-min+1)`), and every pulled
marker is pushed unchanged; when `b - a + 1` overflows, the body panics
in `rand.Intn` instead. -/
theorem randRange_spec (a b : Int) (r : Nat) (vm : VMap)
    (hmin : vm.lookup "min" = Option.some (.int a))
    (hmax : vm.lookup "max" = Option.some (.int b))
    (ha : -9223372036854775808 ≤ a) (hb : b < 9223372036854775808)
    (hab : a ≤ b) (hno : b - a + 1 < 9223372036854775808) :
    (∃ x : Int, randRangeStep (.data (.vmap vm)) r = .ok (.data (.int x))
       ∧ a ≤ x ∧ x ≤ b)
    ∧ ∀ m, randRangeStep (.marker m) r = .ok (.marker m) := by
  have hpos : (0 : Int) < b - a + 1 := by omega
  have hw1 : wrap64 (b - a) = b - a := wrap64_eq _ (by omega) (by omega)
  have hw2 : wrap64 (b - a + 1) = b - a + 1 := wrap64_eq _ (by omega) (by omega)
  have hmod0 := Int.emod_nonneg (r : Int) (by omega : b - a + 1 ≠ 0)
  have hmodlt := Int.emod_lt_of_pos (r : Int) hpos
  constructor
  · refine ⟨a + (r : Int) % (b - a + 1), ?_, ?_, ?_⟩
    · unfold randRangeStep
      simp only
      rw [hmax, hmin]
      simp only
      rw [hw1, hw2]
      unfold randIntn
      rw [if_neg (by omega)]
      unfold Res.mapR
      simp only
      rw [wrap64_eq _ (by omega) (by omega)]
    · omega
    · omega
  · intro m
    rfl

theorem randRange_spec_witness :
    (∃ x : Int,
        randRangeStep (.data (.vmap (VMap.cons "min" (.int 3) (VMap.cons "max" (.int 5) VMap.nil)))) 7
          = .ok (.data (.int x)) ∧ 3 ≤ x ∧ x ≤ 5)
    ∧ ∀ m, randRangeStep (.marker m) 7 = .ok (.marker m) :=
  randRange_spec 3 5 7 (VMap.cons "min" (.int 3) (VMap.cons "max" (.int 5) VMap.nil))
    rfl rfl (by decide) (by decide) (by decide) (by decide)

/-!  ## ParsePortReference (pkg/api/slang.go, C7) -/

/-- Modelled from the spec: the shape of a port type as far as descent is
concerned — a map port with named sub-ports, a stream port with a
sub-port, or anything else. -/
inductive PT : Type where
  | mp (entries : List (String × PT))
  | strm (sub : PT)
  | other

/-- Generic association-list lookup (a Go `map[string]...` access). -/
def lookupPairs {α : Type} (k : String) : List (String × α) → Option α
  | [] => Option.none
  | (k', v) :: rest => if k' = k then Option.some v else lookupPairs k rest

/-- Modelled from the spec: `Port.Map(k)` returns the sub-port under key
`k` of a map port, nil otherwise. -/
def PT.mapGet (t : PT) (k : String) : Option PT :=
  match t with
  | .mp es => lookupPairs k es
  | _ => Option.none

/-- Modelled from the spec: `Port.Stream()` returns the sub-port of a
stream port, nil otherwise. -/
def PT.streamSub : PT → Option PT
  | .strm sub => Option.some sub
  | _ => Option.none

/-- `p.Type() == core.TYPE_MAP`. -/
def PT.isMap : PT → Bool
  | .mp _ => true
  | _ => false

/-- Modelled from the spec: a resolved port carries a direction (`dir =
true` for an input port, as returned by `In()`) and its type shape. -/
structure PortE : Type where
  dir : Bool
  t : PT

/-- Modelled from the spec: a service or delegate with an input and an
output port type. -/
structure SrvE : Type where
  pin : PT
  pout : PT

/-- Modelled from the spec: an operator has a name, named services
(among them `main`), named delegates and named child operators. -/
inductive OperatorE : Type where
  | mk (name : String) (services : List (String × SrvE))
       (delegates : List (String × SrvE)) (children : List (String × OperatorE))

def OperatorE.name : OperatorE → String
  | .mk n _ _ _ => n

/-- `o.Service(name)`. -/
def OperatorE.service : OperatorE → String → Option SrvE
  | .mk _ ss _ _, k => lookupPairs k ss

/-- `o.Delegate(name)`. -/
def OperatorE.delegate : OperatorE → String → Option SrvE
  | .mk _ _ ds _, k => lookupPairs k ds

/-- `o.Child(name)`. -/
def OperatorE.child : OperatorE → String → Option OperatorE
  | .mk _ _ _ cs, k => lookupPairs k cs

/-- `srv.In()` / `srv.Out()` picked by the direction flag. -/
def srvPort (s : SrvE) (isIn : Bool) : PortE :=
  ⟨isIn, if isIn then s.pin else s.pout⟩

/-- `o.Main().In()` / `o.Main().Out()`: `Main()` is the service named
`main`; calling `In()`/`Out()` on a missing main service is a nil
dereference. -/
def mainPort (o : OperatorE) (isIn : Bool) : Res PortE :=
  match o.service "main" with
  | Option.some s => .ok (srvPort s isIn)
  | Option.none => .panics

/-- Go `strings.Split` with a one-character separator: `splitChar c s`
always yields at least one (possibly empty) piece. -/
def splitChar (c : Char) : List Char → List (List Char)
  | [] => [[]]
  | x :: rest =>
    if x = c then [] :: splitChar c rest
    else
      match splitChar c rest with
      | [] => [[x]]
      | h :: t => (x :: h) :: t

/-- The operator-resolution part of `ParsePortReference`: from the
operator part of the split reference, the first split component (used in
one error message), the parent operator and the direction, produce the
base port before path descent. -/
def resolveBase (opPart refSplit0 : List Char) (par : OperatorE) (isIn : Bool)
    (refStr : List Char) : Res PortE :=
  if opPart = [] then mainPort par isIn
  else if opPart.contains '.' ∧ opPart.contains '@' then
    .err ("cannot reference both service and delegate: \"" ++ String.mk refStr ++ "\"")
  else if opPart.contains '.' then
    match splitChar '.' opPart with
    | [opName, dlgName] =>
      (if opName = [] then Res.ok par
       else match par.child (String.mk opName) with
         | Option.some o => Res.ok o
         | Option.none =>
           Res.err ("operator \"" ++ par.name ++ "\" has no child \"" ++ String.mk opName ++ "\"")).bindR
        (fun o =>
          match o.delegate (String.mk dlgName) with
          | Option.some dlg => .ok (srvPort dlg isIn)
          | Option.none =>
            .err ("operator \"" ++ o.name ++ "\" has no delegate \"" ++ String.mk dlgName ++ "\""))
    | _ => .err ("connection string malformed (2): \"" ++ String.mk refStr ++ "\"")
  else if opPart.contains '@' then
    match splitChar '@' opPart with
    | [srvName, opName] =>
      (if opName = [] then Res.ok par
       else match par.child (String.mk opName) with
         | Option.some o => Res.ok o
         | Option.none =>
           Res.err ("operator \"" ++ par.name ++ "\" has no child \"" ++ String.mk opName ++ "\"")).bindR
        (fun o =>
          match o.service (String.mk srvName) with
          | Option.some srv => .ok (srvPort srv isIn)
          | Option.none =>
            .err ("operator \"" ++ o.name ++ "\" has no service \"" ++ String.mk srvName ++ "\""))
    | _ => .err ("connection string malformed (3): \"" ++ String.mk refStr ++ "\"")
  else
    match par.child (String.mk opPart) with
    | Option.some o => mainPort o isIn
    | Option.none =>
      .err ("operator \"" ++ par.name ++ "\" has no child \"" ++ String.mk refSplit0 ++ "\"")

/-- The port-path descent loop of `ParsePortReference`: `~` descends into
the stream sub-port, any other segment requires a map port and descends
under the key. -/
def descendPath (p : PortE) : List (List Char) → Res PortE
  | [] => .ok p
  | seg :: rest =>
    if seg = ['~'] then
      match p.t.streamSub with
      | Option.some sub => descendPath ⟨p.dir, sub⟩ rest
      | Option.none => .err "descending too deep (stream)"
    else if p.t.isMap = false then .err "descending too deep (map)"
    else
      match p.t.mapGet (String.mk seg) with
      | Option.some sub => descendPath ⟨p.dir, sub⟩ rest
      | Option.none => .err ("unknown port: " ++ String.mk seg)

/-- The body of `ParsePortReference` after the direction has been fixed:
split on the separator (exactly two pieces), pick the operator and port
parts by the separator-dependent indices, resolve the base port, then
descend along the dot-separated port path. -/
def parseDir (refStr : List Char) (par : OperatorE) (isIn : Bool) (sep : Char) :
    Res PortE :=
  match splitChar sep refStr with
  | [a, b] =>
    let opPart := if isIn then b else a
    let portPart := if isIn then a else b
    (resolveBase opPart a par isIn refStr).bindR (fun p =>
      let pathSplit := splitChar '.' portPart
      if pathSplit = [[]] then .ok p
      else descendPath p pathSplit)
  | _ => .err ("connection string malformed (1): \"" ++ String.mk refStr ++ "\"")

/-- `ParsePortReference` (the non-nil-parent case): empty string error,
direction from the presence of `(` (input) or, failing that, `)`
(output), otherwise a cannot-derive-direction error. -/
def parsePortReference (refStr : List Char) (par : OperatorE) : Res PortE :=
  if refStr = [] then .err "empty connection string"
  else if refStr.contains '(' then parseDir refStr par true '('
  else if refStr.contains ')' then parseDir refStr par false ')'
  else .err "cannot derive direction"

theorem bindR_ok_inv {α β : Type} (r : Res α) (f : α → Res β) (b : β)
    (h : r.bindR f = .ok b) : ∃ a, r = .ok a ∧ f a = .ok b := by
  cases r with
  | ok a => exact ⟨a, rfl, h⟩
  | err m => cases h
  | panics => cases h

theorem mainPort_dir (o : OperatorE) (isIn : Bool) (p : PortE)
    (h : mainPort o isIn = .ok p) : p.dir = isIn := by
  unfold mainPort at h
  cases hs : o.service "main" with
  | none => rw [hs] at h; cases h
  | some s => rw [hs] at h; cases h; rfl

theorem resolveBase_dir (opPart refSplit0 : List Char) (par : OperatorE) (isIn : Bool)
    (refStr : List Char) (p : PortE)
    (h : resolveBase opPart refSplit0 par isIn refStr = .ok p) : p.dir = isIn := by
  unfold resolveBase at h
  split_ifs at h with h1 h2 h3 h4
  · exact mainPort_dir _ _ _ h
  · split at h
    · obtain ⟨o, -, hf⟩ := bindR_ok_inv _ _ _ h
      split at hf
      · cases hf; rfl
      · cases hf
    · cases h
  · split at h
    · obtain ⟨o, -, hf⟩ := bindR_ok_inv _ _ _ h
      split at hf
      · cases hf; rfl
      · cases hf
    · cases h
  · split at h
    · exact mainPort_dir _ _ _ h
    · cases h

theorem descendPath_dir :
    ∀ (path : List (List Char)) (p q : PortE),
      descendPath p path = .ok q → q.dir = p.dir := by
  intro path
  induction path with
  | nil =>
    intro p q h
    cases h
    rfl
  | cons seg rest ih =>
    intro p q h
    unfold descendPath at h
    split_ifs at h with h1 h2
    · split at h
      · rename_i sub hsub
        exact ih ⟨p.dir, sub⟩ _ h
      · cases h
    · split at h
      · rename_i sub hsub
        exact ih ⟨p.dir, sub⟩ _ h
      · cases h

theorem parseDir_ok_dir (refStr : List Char) (par : OperatorE) (isIn : Bool) (sep : Char)
    (p : PortE) (h : parseDir refStr par isIn sep = .ok p) : p.dir = isIn := by
  unfold parseDir at h
  split at h
  · rename_i x0 a b heq
    obtain ⟨q, hq, hf⟩ := bindR_ok_inv _ _ _ h
    have hqd := resolveBase_dir _ _ _ _ _ _ hq
    simp only at hf
    cases isIn with
    | true =>
      have hred : (if true = true then a else b) = a := rfl
      rw [hred] at hf
      split at hf
      all_goals first
      | (cases hf; exact hqd)
      | (rw [descendPath_dir _ _ _ hf]; exact hqd)
      | (rw [descendPath_dir _ _ _ hf.symm]; exact hqd)
    | false =>
      have hred : (if false = true then a else b) = b := rfl
      rw [hred] at hf
      split at hf
      all_goals first
      | (cases hf; exact hqd)
      | (rw [descendPath_dir _ _ _ hf]; exact hqd)
      | (rw [descendPath_dir _ _ _ hf.symm]; exact hqd)
  · cases h

/-- C7 counterexample: the empty reference string contains neither `(`
nor `)`, yet ParsePortReference returns the empty-connection-string
error, not the cannot-derive-direction error the claim promises for
every string without parentheses. -/
theorem parsePortReference_empty_string_counterexample :
    parsePortReference [] (OperatorE.mk "p" [] [] []) = .err "empty connection string"
    ∧ ([] : List Char).contains '(' = false
    ∧ ([] : List Char).contains ')' = false
    ∧ (Res.err "empty connection string" : Res PortE) ≠ .err "cannot derive direction" := by
  refine ⟨rfl, rfl, rfl, fun h => ?_⟩
  injection h with h'
  exact absurd h' (by decide)

/-- C7 (amended): for every NON-EMPTY reference string: when neither `(`
nor `)` occurs the parser returns the cannot-derive-direction error (the
empty string gets the empty-connection-string error instead); whenever a
port is returned, the presence of `(` makes it an input port and the
presence of `)` without `(` an output port; and an operator part
containing both `.` and `@` makes the resolution step return the
cannot-reference-both error (an error result carries no port by
construction of `Res`). -/
theorem parsePortReference_direction (refStr : List Char) (par : OperatorE)
    (hne : refStr ≠ []) :
    (refStr.contains '(' = false → refStr.contains ')' = false →
       parsePortReference refStr par = .err "cannot derive direction")
    ∧ (∀ p, parsePortReference refStr par = .ok p →
         (refStr.contains '(' = true → p.dir = true)
         ∧ (refStr.contains '(' = false → refStr.contains ')' = true → p.dir = false))
    ∧ (∀ opPart refSplit0 isIn, opPart.contains '.' = true → opPart.contains '@' = true →
         resolveBase opPart refSplit0 par isIn refStr =
           .err ("cannot reference both service and delegate: \"" ++ String.mk refStr ++ "\"")) := by
  refine ⟨?_, ?_, ?_⟩
  · intro h1 h2
    unfold parsePortReference
    rw [if_neg hne, if_neg (by rw [h1]; exact Bool.false_ne_true),
      if_neg (by rw [h2]; exact Bool.false_ne_true)]
  · intro p hok
    constructor
    · intro hc
      unfold parsePortReference at hok
      rw [if_neg hne, if_pos hc] at hok
      exact parseDir_ok_dir _ _ _ _ _ hok
    · intro hc1 hc2
      unfold parsePortReference at hok
      rw [if_neg hne, if_neg (by rw [hc1]; exact Bool.false_ne_true), if_pos hc2] at hok
      exact parseDir_ok_dir _ _ _ _ _ hok
  · intro opPart refSplit0 isIn hdot hat
    have hne2 : opPart ≠ [] := by
      intro hcontra
      subst hcontra
      simp [List.contains] at hdot
    unfold resolveBase
    rw [if_neg hne2, if_pos ⟨hdot, hat⟩]

theorem parsePortReference_direction_witness :
    parsePortReference "ab".data (OperatorE.mk "p" [] [] []) =
      .err "cannot derive direction" :=
  (parsePortReference_direction "ab".data (OperatorE.mk "p" [] [] []) (by decide)).1 rfl rfl
